import Mathlib

/-!
Verification of the Push Force Scan (PFS) overlap-removal algorithm
(`pfs`, `scanX`, `scanY`, `same`, `delta` from `src/unnamed/part_000`).

Coordinates and sizes are embedded as rationals.  The JavaScript arrays of
mutable node objects become lists of `Node` records; the transient staged
position `n.up` is an `Option Pt` field; statements track nodes across the
two in-place sorts through their `id` field.  Fallible steps (the
`throw` on a missing staged position) return `Except String`.
The while-loops of `scanX` / `scanY` / `same` are written with an explicit
fuel argument; `scanX`/`scanY` run them with fuel `nodes.length`, which is
proved sufficient (`scanXAux_fuel_eq` below): the cursor `i` advances to
`k + 1 > i` every iteration, exactly as in the source.
-/

/-- A 2-d point, as used for the staged position `up = {x, y}`. -/
structure Pt where
  x : ℚ
  y : ℚ
deriving DecidableEq, Repr

/-- A node: committed position `(x, y)`, extent `width`/`height`, and the
per-invocation staged position `up` (absent outside a PFS run). -/
structure Node where
  id : Nat
  x : ℚ
  y : ℚ
  width : ℚ
  height : ℚ
  up : Option Pt := none
deriving DecidableEq, Repr

instance : Inhabited Pt := ⟨⟨0, 0⟩⟩

instance : Inhabited Node := ⟨⟨0, 0, 0, 0, 0, none⟩⟩

/-- Array indexing `nodes[i]` (total, with a default out-of-range value,
only ever used in range). -/
def nget (nodes : List Node) (i : Nat) : Node := nodes.getD i default

/-- Staged x coordinate of a node (defaulting when `up` is absent). -/
def upxD (n : Node) : ℚ := (n.up.getD default).x

/-- Staged y coordinate of a node (defaulting when `up` is absent). -/
def upyD (n : Node) : ℚ := (n.up.getD default).y

/-- Modelled from the spec: `vector(a, b)` is the vector from `a`'s current
position to `b`'s current position (agora-graph primitive, not in src/). -/
def vector (a b : Node) : Pt := ⟨b.x - a.x, b.y - a.y⟩

/-- Modelled from the spec: `diff(u, v)` is the vector subtraction `u - v`
(agora-graph primitive, not in src/). -/
def diff (u v : Pt) : Pt := ⟨u.x - v.x, u.y - v.y⟩

/-- Horizontal separation threshold of two nodes: centers at least this far
apart on x means the padded extents do not meet on the x axis. -/
def thrX (a b : Node) (padding : ℚ) : ℚ := (a.width + b.width) / 2 + padding

/-- Vertical separation threshold of two nodes. -/
def thrY (a b : Node) (padding : ℚ) : ℚ := (a.height + b.height) / 2 + padding

/-- Penetration depth of the padded extents along x (positive iff they meet
on the x axis). -/
def penX (a b : Node) (padding : ℚ) : ℚ := thrX a b padding - |b.x - a.x|

/-- Penetration depth of the padded extents along y. -/
def penY (a b : Node) (padding : ℚ) : ℚ := thrY a b padding - |b.y - a.y|

/-- Modelled from the spec: `overlap(a, b, padding)` is true iff the two
extents, inflated by the padding, intersect: the centers are closer than the
separation threshold on both axes (agora-graph primitive, not in src/). -/
def overlap (a b : Node) (padding : ℚ) : Bool :=
  decide (0 < penX a b padding ∧ 0 < penY a b padding)

/-- Sign of a rational, as JavaScript's `Math.sign`. -/
def sgn (q : ℚ) : ℚ := if q < 0 then -1 else if q = 0 then 0 else 1

/-- Modelled from the spec: `optimalVector(a, b, padding)` is the minimum
separating vector between two overlapping nodes: the vector of centers,
with its component on the axis of least overlap pushed out to exactly the
separation threshold (a minimum translation vector; ties pick x).
Agora-graph primitive, not in src/. -/
def optimalVector (a b : Node) (padding : ℚ) : Pt :=
  let v := vector a b
  if penX a b padding ≤ penY a b padding then
    ⟨sgn v.x * thrX a b padding, v.y⟩
  else
    ⟨v.x, sgn v.y * thrY a b padding⟩

/-- `delta(node1, node2, padding)`: zero if the nodes do not overlap,
otherwise the extra push `diff(optimalVector(...), vector(...))` beyond the
current separation needed to reach the minimum separating vector. -/
def delta (node1 node2 : Node) (padding : ℚ) : Pt :=
  if overlap node1 node2 padding then
    diff (optimalVector node1 node2 padding) (vector node1 node2)
  else ⟨0, 0⟩

/-- The comparator `(n1, n2) => n1.x === n2.x` used by `scanX`. -/
def eqX (n1 n2 : Node) : Bool := n1.x == n2.x

/-- The comparator `(n1, n2) => n1.y === n2.y` used by `scanY`. -/
def eqY (n1 n2 : Node) : Bool := n1.y == n2.y

/-- Loop body of `same`: `while (k < nodes.length - 1) { if
(!callback(nodes[index], nodes[k+1])) return k; k++ }; return k`. -/
def sameAux (nodes : List Node) (index : Nat) (callback : Node → Node → Bool) :
    Nat → Nat → Nat
  | 0, k => k
  | fuel + 1, k =>
    if k < nodes.length - 1 then
      if callback (nget nodes index) (nget nodes (k + 1)) then
        sameAux nodes index callback fuel (k + 1)
      else k
    else k

/-- `same(nodes, index, callback)`: the last index of the run starting at
`index` whose members compare equal (via `callback`) to `nodes[index]`. -/
def same (nodes : List Node) (index : Nat) (callback : Node → Node → Bool) : Nat :=
  sameAux nodes index callback nodes.length index

/-- One comparison step of the `maxDelta` accumulation:
`if (Math.abs(move) > Math.abs(maxDelta)) maxDelta = move`. -/
def maxMove (cur move : ℚ) : ℚ := if |move| > |cur| then move else cur

/-- `maxDelta` accumulation of `scanX`: the nested loops `for (m = i; m <= k;
m++) for (j = k + 1; j < nodes.length; j++)` folding `maxMove` over
`delta(nodes[m], nodes[j], padding).x`, starting from `0`. -/
def groupMaxX (nodes : List Node) (padding : ℚ) (i k : Nat) : ℚ :=
  (List.range' i (k + 1 - i)).foldl
    (fun acc m =>
      (List.range' (k + 1) (nodes.length - (k + 1))).foldl
        (fun acc2 j => maxMove acc2 (delta (nget nodes m) (nget nodes j) padding).x)
        acc)
    0

/-- `maxDelta` accumulation of `scanY` (y components). -/
def groupMaxY (nodes : List Node) (padding : ℚ) (i k : Nat) : ℚ :=
  (List.range' i (k + 1 - i)).foldl
    (fun acc m =>
      (List.range' (k + 1) (nodes.length - (k + 1))).foldl
        (fun acc2 j => maxMove acc2 (delta (nget nodes m) (nget nodes j) padding).y)
        acc)
    0

/-- Push loop of `scanX` over a list segment: each node's staged x gains
`maxDelta`; a missing staged position throws. -/
def pushUpX (maxDelta : ℚ) : List Node → Except String (List Node)
  | [] => .ok []
  | n :: rest =>
    match n.up with
    | none => .error "cannot update undefined updated position for node"
    | some u =>
      match pushUpX maxDelta rest with
      | .error e => .error e
      | .ok rest' => .ok ({ n with up := some ⟨u.x + maxDelta, u.y⟩ } :: rest')

/-- Push loop of `scanY` over a list segment (staged y gains `maxDelta`). -/
def pushUpY (maxDelta : ℚ) : List Node → Except String (List Node)
  | [] => .ok []
  | n :: rest =>
    match n.up with
    | none => .error "cannot update undefined updated position for node"
    | some u =>
      match pushUpY maxDelta rest with
      | .error e => .error e
      | .ok rest' => .ok ({ n with up := some ⟨u.x, u.y + maxDelta⟩ } :: rest')

/-- `for (j = k + 1; j < nodes.length; j++) node.up.x += maxDelta`:
push every node of index `≥ start` (i.e. `> k` for `start = k + 1`). -/
def pushFromX (nodes : List Node) (start : Nat) (maxDelta : ℚ) :
    Except String (List Node) :=
  match pushUpX maxDelta (nodes.drop start) with
  | .error e => .error e
  | .ok rest => .ok (nodes.take start ++ rest)

/-- The y-axis push over indices `≥ start`. -/
def pushFromY (nodes : List Node) (start : Nat) (maxDelta : ℚ) :
    Except String (List Node) :=
  match pushUpY maxDelta (nodes.drop start) with
  | .error e => .error e
  | .ok rest => .ok (nodes.take start ++ rest)

/-- The `while (i < nodes.length - 1)` loop of `scanX`, with fuel. -/
def scanXAux (padding : ℚ) : Nat → List Node → Nat → Except String (List Node)
  | 0, nodes, _ => .ok nodes
  | fuel + 1, nodes, i =>
    if i < nodes.length - 1 then
      match pushFromX nodes (same nodes i eqX + 1)
          (groupMaxX nodes padding i (same nodes i eqX)) with
      | .error e => .error e
      | .ok nodes' => scanXAux padding fuel nodes' (same nodes i eqX + 1)
    else .ok nodes

/-- The `while (i < nodes.length - 1)` loop of `scanY`, with fuel. -/
def scanYAux (padding : ℚ) : Nat → List Node → Nat → Except String (List Node)
  | 0, nodes, _ => .ok nodes
  | fuel + 1, nodes, i =>
    if i < nodes.length - 1 then
      match pushFromY nodes (same nodes i eqY + 1)
          (groupMaxY nodes padding i (same nodes i eqY)) with
      | .error e => .error e
      | .ok nodes' => scanYAux padding fuel nodes' (same nodes i eqY + 1)
    else .ok nodes

/-- `scanX(nodes, padding)`: scan and push along the x axis. -/
def scanX (nodes : List Node) (padding : ℚ) : Except String (List Node) :=
  scanXAux padding nodes.length nodes 0

/-- `scanY(nodes, padding)`: scan and push along the y axis. -/
def scanY (nodes : List Node) (padding : ℚ) : Except String (List Node) :=
  scanYAux padding nodes.length nodes 0

/-- `graph.nodes.sort((a, b) => a.x - b.x)` — a stable sort ascending by the
current x coordinate. -/
def sortByX (nodes : List Node) : List Node :=
  nodes.insertionSort (fun a b => a.x ≤ b.x)

/-- `graph.nodes.sort((a, b) => a.y - b.y)`. -/
def sortByY (nodes : List Node) : List Node :=
  nodes.insertionSort (fun a b => a.y ≤ b.y)

/-- `n.up = { x: n.x, y: n.y }`: stage the current position. -/
def initUp (n : Node) : Node := { n with up := some ⟨n.x, n.y⟩ }

/-- The commit loop of `pfs`: `n.x = n.up.x; n.y = n.up.y; delete n.up`,
throwing when the staged position is absent. -/
def commit : List Node → Except String (List Node)
  | [] => .ok []
  | n :: rest =>
    match n.up with
    | none => .error "cannot update undefined updated position for node"
    | some u =>
      match commit rest with
      | .error e => .error e
      | .ok rest' => .ok ({ n with x := u.x, y := u.y, up := none } :: rest')

/-- `pfs(graph, {padding})`: stage all positions, sort by x and scan x, sort
by y and scan y, then commit the staged positions. -/
def pfs (nodes : List Node) (padding : ℚ) : Except String (List Node) :=
  match scanX (sortByX (nodes.map initUp)) padding with
  | .error e => .error e
  | .ok nodes2 =>
    match scanY (sortByY nodes2) padding with
    | .error e => .error e
    | .ok nodes3 => commit nodes3

instance {ε α : Type} [DecidableEq ε] [DecidableEq α] : DecidableEq (Except ε α) :=
  fun a b =>
    match a, b with
    | .ok x, .ok y => decidable_of_iff (x = y) (by simp)
    | .error e, .error f => decidable_of_iff (e = f) (by simp)
    | .ok _, .error _ => isFalse (by simp)
    | .error _, .ok _ => isFalse (by simp)

/-- All nodes of a list carry a staged position. -/
def AllUp (nodes : List Node) : Prop := ∀ n ∈ nodes, n.up.isSome

/-- Sortedness by the current x coordinate. -/
def SortedX (nodes : List Node) : Prop := List.Sorted (fun a b : Node => a.x ≤ b.x) nodes

/-- Sortedness by the current y coordinate. -/
def SortedY (nodes : List Node) : Prop := List.Sorted (fun a b : Node => a.y ≤ b.y) nodes

/-- Shift a node's staged x coordinate by `d` (leaving every other field,
including the staged y, untouched). -/
def pushNodeX (d : ℚ) (n : Node) : Node :=
  { n with up := n.up.map (fun u => ⟨u.x + d, u.y⟩) }

/-- Shift a node's staged y coordinate by `d`. -/
def pushNodeY (d : ℚ) (n : Node) : Node :=
  { n with up := n.up.map (fun u => ⟨u.x, u.y + d⟩) }

/-- A node moved by `(dx, dy)` with no staged position: the shape of the
nodes `pfs` returns. -/
def moved (n : Node) (dx dy : ℚ) : Node :=
  { n with x := n.x + dx, y := n.y + dy, up := none }

/-- The x deltas examined for the tie group `[i, k]`, in the iteration order
of the nested loops of `scanX` (`m` outer from `i` to `k`, `j` inner from
`k + 1` to the end): `groupMaxX` folds `maxMove` over exactly this list
(`groupMaxX_eq_foldl` below). -/
def pairsX (nodes : List Node) (padding : ℚ) (i k : Nat) : List ℚ :=
  (List.range' i (k + 1 - i)).flatMap (fun m =>
    (List.range' (k + 1) (nodes.length - (k + 1))).map
      (fun j => (delta (nget nodes m) (nget nodes j) padding).x))

/-- The y deltas examined for the tie group `[i, k]` by `scanY`, in
iteration order. -/
def pairsY (nodes : List Node) (padding : ℚ) (i k : Nat) : List ℚ :=
  (List.range' i (k + 1 - i)).flatMap (fun m =>
    (List.range' (k + 1) (nodes.length - (k + 1))).map
      (fun j => (delta (nget nodes m) (nget nodes j) padding).y))

/-- A pair is separable by the two scans: it does not overlap, or its
coordinates differ on its axis of least overlap (the axis its minimum
translation vector acts on). -/
def sepAxisOK (a b : Node) (padding : ℚ) : Prop :=
  overlap a b padding = false ∨
    (penX a b padding ≤ penY a b padding ∧ a.x ≠ b.x) ∨
    (penY a b padding < penX a b padding ∧ a.y ≠ b.y)

/-- The effect of the commit loop on one staged node: copy the staged
position onto the current one and drop it. -/
def commitNode (n : Node) : Node := { n with x := upxD n, y := upyD n, up := none }

instance : IsTotal Node (fun a b : Node => a.x ≤ b.x) := ⟨fun a b => le_total a.x b.x⟩

instance : IsTrans Node (fun a b : Node => a.x ≤ b.x) :=
  ⟨fun _ _ _ hab hbc => le_trans hab hbc⟩

instance : IsTotal Node (fun a b : Node => a.y ≤ b.y) := ⟨fun a b => le_total a.y b.y⟩

instance : IsTrans Node (fun a b : Node => a.y ≤ b.y) :=
  ⟨fun _ _ _ hab hbc => le_trans hab hbc⟩

/-! Concrete node configurations used by the evaluation theorems at the end
of the file (counterexamples, and instantiations of the general theorems). -/

/-- A 2×2 square at the origin. -/
def wa : Node := ⟨0, 0, 0, 2, 2, none⟩

/-- A 2×2 square at `(1, 0)`: overlaps `wa` with least overlap on x. -/
def wb : Node := ⟨1, 1, 0, 2, 2, none⟩

/-- Where `pfs [wa, wb] 0` puts `wb`: pushed right to tangency at `x = 2`. -/
def wb2 : Node := ⟨1, 2, 0, 2, 2, none⟩

/-- A 2×2 square coincident with `wa` (same centre, same extent). -/
def wb0 : Node := ⟨1, 0, 0, 2, 2, none⟩

/-- A 2×2 square at `(5, 0)`: clear of `wa`. -/
def wfb : Node := ⟨1, 5, 0, 2, 2, none⟩

/-- A lone 1×1 node away from the others. -/
def wSingle : Node := ⟨7, 3, 4, 1, 1, none⟩

/-- `wa` with its staged position initialised (mid-run state). -/
def wsa : Node := ⟨0, 0, 0, 2, 2, some ⟨0, 0⟩⟩

/-- `wb` with its staged position initialised (mid-run state). -/
def wsb : Node := ⟨1, 1, 0, 2, 2, some ⟨1, 0⟩⟩

/-- `wsb` after the x scan: staged x pushed from 1 to 2. -/
def wsb2 : Node := ⟨1, 1, 0, 2, 2, some ⟨2, 0⟩⟩

/-- A staged-position-free node with x and y distinct from `wsa`. -/
def wmb : Node := ⟨1, 1, 1, 2, 2, none⟩

/-- A one-node list whose staged position is absent. -/
def wSolo : List Node := [⟨0, 0, 0, 1, 1, none⟩]

/-- Tie-group scenario, first member: x = 0, staged. -/
def wg1 : Node := ⟨0, 0, 0, 2, 2, some ⟨0, 0⟩⟩

/-- Tie-group scenario, second member: x = 0, staged. -/
def wg2 : Node := ⟨1, 0, 1, 2, 2, some ⟨0, 1⟩⟩

/-- Tie-group scenario, third member: x = 0, staged. -/
def wg3 : Node := ⟨2, 0, 2, 2, 2, some ⟨0, 2⟩⟩

/-- Tie-group scenario, fourth node: x = 1, overlapping the group. -/
def wg4 : Node := ⟨3, 1, 1, 2, 2, some ⟨1, 1⟩⟩

/-- Non-idempotence scenario: a tall 10×100 box at the origin. -/
def wca : Node := ⟨0, 0, 0, 10, 100, none⟩

/-- Non-idempotence scenario: a tall 10×100 box at `(0, 10)`. -/
def wcb : Node := ⟨1, 0, 10, 10, 100, none⟩

/-- Non-idempotence scenario: a wide 200×80 box at `(20, 1)`. -/
def wcc : Node := ⟨2, 20, 1, 200, 80, none⟩

/-- `wcc` after the first run: pushed right to `x = 105`. -/
def wcc1 : Node := ⟨2, 105, 1, 200, 80, none⟩

/-- `wcb` after the first run: pushed up to `y = 91`. -/
def wcb1 : Node := ⟨1, 0, 91, 10, 100, none⟩

/-- `wcc1` after the second run: pushed up to `y = 10`. -/
def wcc2 : Node := ⟨2, 105, 10, 200, 80, none⟩

/-- `wcb1` after the second run: pushed further up to `y = 100`. -/
def wcb2 : Node := ⟨1, 0, 100, 10, 100, none⟩

theorem pushNodeX_zero (n : Node) : pushNodeX 0 n = n := by
  cases n with
  | mk id x y w h up =>
    cases up with
    | none => rfl
    | some u => simp [pushNodeX]

theorem pushNodeY_zero (n : Node) : pushNodeY 0 n = n := by
  cases n with
  | mk id x y w h up =>
    cases up with
    | none => rfl
    | some u => simp [pushNodeY]

theorem pushNodeX_comp (d e : ℚ) (n : Node) :
    pushNodeX d (pushNodeX e n) = pushNodeX (e + d) n := by
  cases n with
  | mk id x y w h up =>
    cases up with
    | none => rfl
    | some u => simp [pushNodeX, add_assoc]

theorem pushNodeY_comp (d e : ℚ) (n : Node) :
    pushNodeY d (pushNodeY e n) = pushNodeY (e + d) n := by
  cases n with
  | mk id x y w h up =>
    cases up with
    | none => rfl
    | some u => simp [pushNodeY, add_assoc]

@[simp] theorem pushNodeX_x (d : ℚ) (n : Node) : (pushNodeX d n).x = n.x := rfl
@[simp] theorem pushNodeX_y (d : ℚ) (n : Node) : (pushNodeX d n).y = n.y := rfl
@[simp] theorem pushNodeX_id (d : ℚ) (n : Node) : (pushNodeX d n).id = n.id := rfl
@[simp] theorem pushNodeY_x (d : ℚ) (n : Node) : (pushNodeY d n).x = n.x := rfl
@[simp] theorem pushNodeY_y (d : ℚ) (n : Node) : (pushNodeY d n).y = n.y := rfl
@[simp] theorem pushNodeY_id (d : ℚ) (n : Node) : (pushNodeY d n).id = n.id := rfl

theorem delta_pushNodeX (d e p : ℚ) (a b : Node) :
    delta (pushNodeX d a) (pushNodeX e b) p = delta a b p := rfl

theorem delta_pushNodeY (d e p : ℚ) (a b : Node) :
    delta (pushNodeY d a) (pushNodeY e b) p = delta a b p := rfl

theorem delta_initUp (p : ℚ) (a b : Node) :
    delta (initUp a) (initUp b) p = delta a b p := rfl

theorem nget_lt {nodes : List Node} {j : Nat} (h : j < nodes.length) :
    nget nodes j = nodes[j] := List.getD_eq_getElem nodes default h

theorem nget_ge {nodes : List Node} {j : Nat} (h : nodes.length ≤ j) :
    nget nodes j = default := by
  unfold nget
  rw [List.getD_eq_getElem?_getD, List.getElem?_eq_none (by omega)]
  rfl

theorem mem_of_nget {nodes : List Node} {j : Nat} (h : j < nodes.length) :
    nget nodes j ∈ nodes := by
  rw [nget_lt h]; exact List.getElem_mem h

theorem nget_ex {nodes : List Node} {n : Node} (h : n ∈ nodes) :
    ∃ j, j < nodes.length ∧ nget nodes j = n := by
  obtain ⟨j, hj, hget⟩ := List.mem_iff_getElem.mp h
  exact ⟨j, hj, by rw [nget_lt hj]; exact hget⟩

theorem pushUpX_ok (d : ℚ) : ∀ (l : List Node), (∀ n ∈ l, n.up.isSome) →
    pushUpX d l = .ok (l.map (pushNodeX d))
  | [], _ => rfl
  | n :: rest, h => by
    have hn : n.up.isSome := h n (List.mem_cons_self n rest)
    obtain ⟨u, hu⟩ := Option.isSome_iff_exists.mp hn
    have ih := pushUpX_ok d rest (fun m hm => h m (List.mem_cons_of_mem n hm))
    simp only [pushUpX, hu, ih, List.map_cons]
    simp [pushNodeX, hu]

theorem pushUpX_of_ok (d : ℚ) : ∀ (l l' : List Node), pushUpX d l = .ok l' →
    l' = l.map (pushNodeX d)
  | [], l', h => by simpa [pushUpX] using h.symm
  | n :: rest, l', h => by
    cases hu : n.up with
    | none => simp [pushUpX, hu] at h
    | some u =>
      cases hrest : pushUpX d rest with
      | error e => simp [pushUpX, hu, hrest] at h
      | ok rest' =>
        have ih := pushUpX_of_ok d rest rest' hrest
        simp only [pushUpX, hu, hrest] at h
        injection h with h
        subst h
        rw [ih, List.map_cons]
        simp [pushNodeX, hu]

theorem pushUpY_ok (d : ℚ) : ∀ (l : List Node), (∀ n ∈ l, n.up.isSome) →
    pushUpY d l = .ok (l.map (pushNodeY d))
  | [], _ => rfl
  | n :: rest, h => by
    have hn : n.up.isSome := h n (List.mem_cons_self n rest)
    obtain ⟨u, hu⟩ := Option.isSome_iff_exists.mp hn
    have ih := pushUpY_ok d rest (fun m hm => h m (List.mem_cons_of_mem n hm))
    simp only [pushUpY, hu, ih, List.map_cons]
    simp [pushNodeY, hu]

theorem pushUpY_of_ok (d : ℚ) : ∀ (l l' : List Node), pushUpY d l = .ok l' →
    l' = l.map (pushNodeY d)
  | [], l', h => by simpa [pushUpY] using h.symm
  | n :: rest, l', h => by
    cases hu : n.up with
    | none => simp [pushUpY, hu] at h
    | some u =>
      cases hrest : pushUpY d rest with
      | error e => simp [pushUpY, hu, hrest] at h
      | ok rest' =>
        have ih := pushUpY_of_ok d rest rest' hrest
        simp only [pushUpY, hu, hrest] at h
        injection h with h
        subst h
        rw [ih, List.map_cons]
        simp [pushNodeY, hu]

theorem pushUpX_error (d : ℚ) : ∀ (l : List Node), (∃ n ∈ l, n.up = none) →
    ∃ e, pushUpX d l = .error e
  | [], h => by simp at h
  | n :: rest, h => by
    cases hu : n.up with
    | none =>
      exact ⟨"cannot update undefined updated position for node", by simp [pushUpX, hu]⟩
    | some u =>
      obtain ⟨m, hm, hmup⟩ := h
      rcases List.mem_cons.mp hm with rfl | hm
      · rw [hu] at hmup; exact absurd hmup (by simp)
      · obtain ⟨e, he⟩ := pushUpX_error d rest ⟨m, hm, hmup⟩
        exact ⟨e, by simp [pushUpX, hu, he]⟩

theorem pushUpY_error (d : ℚ) : ∀ (l : List Node), (∃ n ∈ l, n.up = none) →
    ∃ e, pushUpY d l = .error e
  | [], h => by simp at h
  | n :: rest, h => by
    cases hu : n.up with
    | none =>
      exact ⟨"cannot update undefined updated position for node", by simp [pushUpY, hu]⟩
    | some u =>
      obtain ⟨m, hm, hmup⟩ := h
      rcases List.mem_cons.mp hm with rfl | hm
      · rw [hu] at hmup; exact absurd hmup (by simp)
      · obtain ⟨e, he⟩ := pushUpY_error d rest ⟨m, hm, hmup⟩
        exact ⟨e, by simp [pushUpY, hu, he]⟩

/-- Successful x push: the drop-part nodes get their staged x shifted. -/
theorem pushFromX_ok {nodes : List Node} {s : Nat} {d : ℚ}
    (h : ∀ n ∈ nodes.drop s, n.up.isSome) :
    pushFromX nodes s d = .ok (nodes.take s ++ (nodes.drop s).map (pushNodeX d)) := by
  unfold pushFromX
  rw [pushUpX_ok d (nodes.drop s) h]

theorem pushFromY_ok {nodes : List Node} {s : Nat} {d : ℚ}
    (h : ∀ n ∈ nodes.drop s, n.up.isSome) :
    pushFromY nodes s d = .ok (nodes.take s ++ (nodes.drop s).map (pushNodeY d)) := by
  unfold pushFromY
  rw [pushUpY_ok d (nodes.drop s) h]

theorem pushSegX_length {nodes : List Node} {s : Nat} {d : ℚ} :
    (nodes.take s ++ (nodes.drop s).map (pushNodeX d)).length = nodes.length := by
  simp only [List.length_append, List.length_take, List.length_map, List.length_drop]
  omega

theorem pushSegY_length {nodes : List Node} {s : Nat} {d : ℚ} :
    (nodes.take s ++ (nodes.drop s).map (pushNodeY d)).length = nodes.length := by
  simp only [List.length_append, List.length_take, List.length_map, List.length_drop]
  omega

theorem nget_pushSegX_lt {nodes : List Node} {s j : Nat} {d : ℚ}
    (hs : s ≤ nodes.length) (hj : j < s) :
    nget (nodes.take s ++ (nodes.drop s).map (pushNodeX d)) j = nget nodes j := by
  have hj' : j < nodes.length := lt_of_lt_of_le hj hs
  have hjt : j < (nodes.take s).length := by simp [List.length_take]; omega
  rw [nget_lt (by rw [pushSegX_length]; omega), nget_lt hj',
    List.getElem_append_left hjt]
  simp [List.getElem_take]

theorem nget_pushSegX_ge {nodes : List Node} {s j : Nat} {d : ℚ}
    (hs : s ≤ j) (hj : j < nodes.length) :
    nget (nodes.take s ++ (nodes.drop s).map (pushNodeX d)) j
      = pushNodeX d (nget nodes j) := by
  have hslen : s ≤ nodes.length := le_of_lt (lt_of_le_of_lt hs hj)
  have hjt : (nodes.take s).length ≤ j := by simp [List.length_take]; omega
  rw [nget_lt (by rw [pushSegX_length]; omega), nget_lt hj,
    List.getElem_append_right hjt]
  have hlt : j - (nodes.take s).length < ((nodes.drop s).map (pushNodeX d)).length := by
    simp [List.length_take, List.length_map, List.length_drop]; omega
  rw [List.getElem_map]
  congr 1
  rw [List.getElem_drop]
  congr 1
  simp [List.length_take]; omega

theorem nget_pushSegY_lt {nodes : List Node} {s j : Nat} {d : ℚ}
    (hs : s ≤ nodes.length) (hj : j < s) :
    nget (nodes.take s ++ (nodes.drop s).map (pushNodeY d)) j = nget nodes j := by
  have hj' : j < nodes.length := lt_of_lt_of_le hj hs
  have hjt : j < (nodes.take s).length := by simp [List.length_take]; omega
  rw [nget_lt (by rw [pushSegY_length]; omega), nget_lt hj',
    List.getElem_append_left hjt]
  simp [List.getElem_take]

theorem nget_pushSegY_ge {nodes : List Node} {s j : Nat} {d : ℚ}
    (hs : s ≤ j) (hj : j < nodes.length) :
    nget (nodes.take s ++ (nodes.drop s).map (pushNodeY d)) j
      = pushNodeY d (nget nodes j) := by
  have hslen : s ≤ nodes.length := le_of_lt (lt_of_le_of_lt hs hj)
  have hjt : (nodes.take s).length ≤ j := by simp [List.length_take]; omega
  rw [nget_lt (by rw [pushSegY_length]; omega), nget_lt hj,
    List.getElem_append_right hjt]
  have hlt : j - (nodes.take s).length < ((nodes.drop s).map (pushNodeY d)).length := by
    simp [List.length_take, List.length_map, List.length_drop]; omega
  rw [List.getElem_map]
  congr 1
  rw [List.getElem_drop]
  congr 1
  simp [List.length_take]; omega

theorem sameAux_ge (nodes : List Node) (index : Nat) (cb : Node → Node → Bool) :
    ∀ fuel k, k ≤ sameAux nodes index cb fuel k
  | 0, k => le_refl k
  | fuel + 1, k => by
    unfold sameAux
    split
    · split
      · exact le_trans (Nat.le_succ k) (sameAux_ge nodes index cb fuel (k + 1))
      · exact le_refl k
    · exact le_refl k

theorem sameAux_le (nodes : List Node) (index : Nat) (cb : Node → Node → Bool) :
    ∀ fuel k, k ≤ nodes.length - 1 → sameAux nodes index cb fuel k ≤ nodes.length - 1
  | 0, k, h => h
  | fuel + 1, k, h => by
    unfold sameAux
    split
    · split
      · exact sameAux_le nodes index cb fuel (k + 1) (by omega)
      · exact h
    · exact h

theorem same_ge (nodes : List Node) (index : Nat) (cb : Node → Node → Bool) :
    index ≤ same nodes index cb :=
  sameAux_ge nodes index cb nodes.length index

theorem same_le (nodes : List Node) (index : Nat) (cb : Node → Node → Bool)
    (h : index < nodes.length) : same nodes index cb ≤ nodes.length - 1 :=
  sameAux_le nodes index cb nodes.length index (by omega)

theorem sameAux_mem (nodes : List Node) (index : Nat) (cb : Node → Node → Bool) :
    ∀ fuel k j, k < j → j ≤ sameAux nodes index cb fuel k →
      cb (nget nodes index) (nget nodes j) = true
  | 0, k, j, hkj, hj => by
    simp only [sameAux] at hj; omega
  | fuel + 1, k, j, hkj, hj => by
    unfold sameAux at hj
    by_cases h1 : k < nodes.length - 1
    · rw [if_pos h1] at hj
      by_cases h2 : cb (nget nodes index) (nget nodes (k + 1)) = true
      · rw [if_pos h2] at hj
        rcases Nat.lt_or_ge (k + 1) j with h3 | h3
        · exact sameAux_mem nodes index cb fuel (k + 1) j h3 hj
        · have : j = k + 1 := by omega
          rw [this]; exact h2
      · rw [if_neg h2] at hj; omega
    · rw [if_neg h1] at hj; omega

theorem same_mem (nodes : List Node) (index : Nat) (cb : Node → Node → Bool) :
    ∀ j, index < j → j ≤ same nodes index cb →
      cb (nget nodes index) (nget nodes j) = true :=
  fun j h1 h2 => sameAux_mem nodes index cb nodes.length index j h1 h2

theorem sameAux_boundary (nodes : List Node) (index : Nat) (cb : Node → Node → Bool) :
    ∀ fuel k, nodes.length - 1 - k ≤ fuel → k ≤ nodes.length - 1 →
      sameAux nodes index cb fuel k = nodes.length - 1 ∨
        cb (nget nodes index) (nget nodes (sameAux nodes index cb fuel k + 1)) = false
  | 0, k, hf, hk => by
    left
    simp only [sameAux]
    omega
  | fuel + 1, k, hf, hk => by
    unfold sameAux
    by_cases h1 : k < nodes.length - 1
    · rw [if_pos h1]
      by_cases h2 : cb (nget nodes index) (nget nodes (k + 1)) = true
      · rw [if_pos h2]
        exact sameAux_boundary nodes index cb fuel (k + 1) (by omega) (by omega)
      · rw [if_neg h2]
        right
        exact Bool.eq_false_iff.mpr h2
    · rw [if_neg h1]
      left
      omega

theorem same_boundary (nodes : List Node) (index : Nat) (cb : Node → Node → Bool)
    (h : index < nodes.length) :
    same nodes index cb = nodes.length - 1 ∨
      cb (nget nodes index) (nget nodes (same nodes index cb + 1)) = false :=
  sameAux_boundary nodes index cb nodes.length index (by omega) (by omega)

theorem foldl_maxMove_cases (l : List ℚ) : ∀ acc : ℚ,
    (l.foldl maxMove acc = acc ∧ ∀ d ∈ l, |d| ≤ |acc|) ∨
    (∃ n, n < l.length ∧ l.foldl maxMove acc = l.getD n 0 ∧ |acc| < |l.getD n 0| ∧
      (∀ m, m < n → |l.getD m 0| < |l.getD n 0|) ∧ (∀ d ∈ l, |d| ≤ |l.getD n 0|)) := by
  induction l with
  | nil => intro acc; left; exact ⟨rfl, by simp⟩
  | cons a l ih =>
    intro acc
    have hfold : (a :: l).foldl maxMove acc = l.foldl maxMove (maxMove acc a) := rfl
    by_cases ha : |a| > |acc|
    · have hmm : maxMove acc a = a := if_pos ha
      rcases ih a with ⟨hres, hall⟩ | ⟨n, hn, hres, hacc, hpre, hall⟩
      · right
        refine ⟨0, by simp, ?_, ?_, ?_, ?_⟩
        · rw [hfold, hmm, hres]; rfl
        · simpa using ha
        · intro m hm; omega
        · intro d hd
          rcases List.mem_cons.mp hd with rfl | hd
          · simp
          · simpa using hall d hd
      · right
        refine ⟨n + 1, by simpa using hn, ?_, ?_, ?_, ?_⟩
        · rw [hfold, hmm, hres]; rfl
        · calc |acc| < |a| := ha
            _ < |(a :: l).getD (n + 1) 0| := by simpa using hacc
        · intro m hm
          cases m with
          | zero => simpa using hacc
          | succ m => simpa using hpre m (by omega)
        · intro d hd
          rcases List.mem_cons.mp hd with rfl | hd
          · refine le_of_lt ?_
            calc |d| < |l.getD n 0| := hacc
              _ = |(d :: l).getD (n + 1) 0| := by simp
          · simpa using hall d hd
    · have hmm : maxMove acc a = acc := if_neg ha
      push_neg at ha
      rcases ih acc with ⟨hres, hall⟩ | ⟨n, hn, hres, hacc, hpre, hall⟩
      · left
        refine ⟨by rw [hfold, hmm, hres], ?_⟩
        intro d hd
        rcases List.mem_cons.mp hd with rfl | hd
        · exact ha
        · exact hall d hd
      · right
        refine ⟨n + 1, by simpa using hn, ?_, ?_, ?_, ?_⟩
        · rw [hfold, hmm, hres]; rfl
        · simpa using hacc
        · intro m hm
          cases m with
          | zero =>
            simp only [List.getD_cons_zero]
            calc |a| ≤ |acc| := ha
              _ < |l.getD n 0| := hacc
              _ = |(a :: l).getD (n + 1) 0| := by simp
          | succ m => simpa using hpre m (by omega)
        · intro d hd
          rcases List.mem_cons.mp hd with rfl | hd
          · calc |d| ≤ |acc| := ha
              _ ≤ |(d :: l).getD (n + 1) 0| := le_of_lt (by simpa using hacc)
          · simpa using hall d hd

theorem foldl_maxMove_mem0 (l : List ℚ) : l.foldl maxMove 0 = 0 ∨ l.foldl maxMove 0 ∈ l := by
  rcases foldl_maxMove_cases l 0 with ⟨hres, _⟩ | ⟨n, hn, hres, _, _, _⟩
  · left; exact hres
  · right; rw [hres, List.getD_eq_getElem l 0 hn]; exact List.getElem_mem hn

theorem foldl_maxMove_nonneg (l : List ℚ) (h : ∀ d ∈ l, 0 ≤ d) :
    0 ≤ l.foldl maxMove 0 := by
  rcases foldl_maxMove_mem0 l with hres | hres
  · rw [hres]
  · exact h _ hres

theorem foldl_maxMove_ge (l : List ℚ) (h : ∀ d ∈ l, 0 ≤ d) :
    ∀ d ∈ l, d ≤ l.foldl maxMove 0 := by
  intro d hd
  rcases foldl_maxMove_cases l 0 with ⟨hres, hall⟩ | ⟨n, hn, hres, _, _, hall⟩
  · have h1 := hall d hd
    rw [abs_zero] at h1
    have h2 : |d| = d := abs_of_nonneg (h d hd)
    rw [hres]
    linarith
  · rw [hres]
    have hmem : l.getD n 0 ∈ l := by
      rw [List.getD_eq_getElem l 0 hn]; exact List.getElem_mem hn
    have h1 := hall d hd
    have h2 : 0 ≤ l.getD n 0 := h _ hmem
    calc d ≤ |d| := le_abs_self d
      _ ≤ |l.getD n 0| := h1
      _ = l.getD n 0 := abs_of_nonneg h2

theorem foldl_maxMove_zero (l : List ℚ) (h : ∀ d ∈ l, d = 0) :
    l.foldl maxMove 0 = 0 := by
  rcases foldl_maxMove_mem0 l with hres | hres
  · exact hres
  · exact h _ hres

theorem foldl_flatMap {α β γ : Type} (g : γ → List α) (f : β → α → β) :
    ∀ (L : List γ) (b : β),
      (L.flatMap g).foldl f b = L.foldl (fun acc c => (g c).foldl f acc) b
  | [], b => rfl
  | c :: L, b => by
    simp only [List.flatMap_cons, List.foldl_append, List.foldl_cons]
    exact foldl_flatMap g f L _

theorem groupMaxX_eq_foldl (nodes : List Node) (p : ℚ) (i k : Nat) :
    groupMaxX nodes p i k = (pairsX nodes p i k).foldl maxMove 0 := by
  simp only [groupMaxX, pairsX, foldl_flatMap, List.foldl_map]

theorem groupMaxY_eq_foldl (nodes : List Node) (p : ℚ) (i k : Nat) :
    groupMaxY nodes p i k = (pairsY nodes p i k).foldl maxMove 0 := by
  simp only [groupMaxY, pairsY, foldl_flatMap, List.foldl_map]

theorem mem_pairsX {nodes : List Node} {p : ℚ} {i k : Nat} {q : ℚ} :
    q ∈ pairsX nodes p i k ↔
      ∃ m j, i ≤ m ∧ m ≤ k ∧ k + 1 ≤ j ∧ j < nodes.length ∧
        q = (delta (nget nodes m) (nget nodes j) p).x := by
  simp only [pairsX, List.mem_flatMap, List.mem_map, List.mem_range'_1]
  constructor
  · rintro ⟨m, ⟨him1, him2⟩, j, ⟨⟨hij1, hij2⟩, rfl⟩⟩
    exact ⟨m, j, by omega, by omega, by omega, by omega, rfl⟩
  · rintro ⟨m, j, h1, h2, h3, h4, rfl⟩
    exact ⟨m, ⟨h1, by omega⟩, j, ⟨⟨h3, by omega⟩, rfl⟩⟩

theorem mem_pairsY {nodes : List Node} {p : ℚ} {i k : Nat} {q : ℚ} :
    q ∈ pairsY nodes p i k ↔
      ∃ m j, i ≤ m ∧ m ≤ k ∧ k + 1 ≤ j ∧ j < nodes.length ∧
        q = (delta (nget nodes m) (nget nodes j) p).y := by
  simp only [pairsY, List.mem_flatMap, List.mem_map, List.mem_range'_1]
  constructor
  · rintro ⟨m, ⟨him1, him2⟩, j, ⟨⟨hij1, hij2⟩, rfl⟩⟩
    exact ⟨m, j, by omega, by omega, by omega, by omega, rfl⟩
  · rintro ⟨m, j, h1, h2, h3, h4, rfl⟩
    exact ⟨m, ⟨h1, by omega⟩, j, ⟨⟨h3, by omega⟩, rfl⟩⟩

theorem overlap_true_iff {a b : Node} {p : ℚ} :
    overlap a b p = true ↔ 0 < penX a b p ∧ 0 < penY a b p := by
  simp [overlap]

theorem overlap_false_iff {a b : Node} {p : ℚ} :
    overlap a b p = false ↔ penX a b p ≤ 0 ∨ penY a b p ≤ 0 := by
  simp only [overlap, decide_eq_false_iff_not, not_and_or, not_lt]

theorem sgn_of_pos {q : ℚ} (h : 0 < q) : sgn q = 1 := by
  unfold sgn
  rw [if_neg (by linarith), if_neg (by linarith)]

theorem sgn_of_neg {q : ℚ} (h : q < 0) : sgn q = -1 := if_pos h

theorem delta_of_no_overlap {a b : Node} {p : ℚ} (h : overlap a b p = false) :
    delta a b p = ⟨0, 0⟩ := by
  unfold delta
  rw [h]
  simp

theorem deltaX_of_mtvX {a b : Node} {p : ℚ} (hov : overlap a b p = true)
    (hpen : penX a b p ≤ penY a b p) (hx : a.x < b.x) :
    (delta a b p).x = thrX a b p - (b.x - a.x) := by
  unfold delta
  rw [hov]
  simp only [if_true, optimalVector, diff, vector]
  rw [if_pos hpen]
  simp only []
  rw [sgn_of_pos (by simpa using sub_pos.mpr hx)]
  ring

theorem deltaX_of_mtvY {a b : Node} {p : ℚ} (hpen : ¬penX a b p ≤ penY a b p) :
    (delta a b p).x = 0 := by
  unfold delta
  cases hov : overlap a b p with
  | false => simp
  | true =>
    simp only [if_true, optimalVector, diff, vector]
    rw [if_neg hpen]
    simp

theorem deltaY_of_mtvY {a b : Node} {p : ℚ} (hov : overlap a b p = true)
    (hpen : ¬penX a b p ≤ penY a b p) (hy : a.y < b.y) :
    (delta a b p).y = thrY a b p - (b.y - a.y) := by
  unfold delta
  rw [hov]
  simp only [if_true, optimalVector, diff, vector]
  rw [if_neg hpen]
  simp only []
  rw [sgn_of_pos (by simpa using sub_pos.mpr hy)]
  ring

theorem deltaY_of_mtvX {a b : Node} {p : ℚ} (hpen : penX a b p ≤ penY a b p) :
    (delta a b p).y = 0 := by
  unfold delta
  cases hov : overlap a b p with
  | false => simp
  | true =>
    simp only [if_true, optimalVector, diff, vector]
    rw [if_pos hpen]
    simp

theorem deltaX_nonneg {a b : Node} {p : ℚ} (hx : a.x < b.x) : 0 ≤ (delta a b p).x := by
  cases hov : overlap a b p with
  | false => rw [delta_of_no_overlap hov]
  | true =>
    by_cases hpen : penX a b p ≤ penY a b p
    · rw [deltaX_of_mtvX hov hpen hx]
      have h1 := (overlap_true_iff.mp hov).1
      have h2 : |b.x - a.x| = b.x - a.x := abs_of_pos (by linarith)
      unfold penX at h1
      rw [h2] at h1
      linarith
    · rw [deltaX_of_mtvY hpen]

theorem deltaY_nonneg {a b : Node} {p : ℚ} (hy : a.y < b.y) : 0 ≤ (delta a b p).y := by
  cases hov : overlap a b p with
  | false => rw [delta_of_no_overlap hov]
  | true =>
    by_cases hpen : penX a b p ≤ penY a b p
    · rw [deltaY_of_mtvX hpen]
    · rw [deltaY_of_mtvY hov hpen hy]
      have h1 := (overlap_true_iff.mp hov).2
      have h2 : |b.y - a.y| = b.y - a.y := abs_of_pos (by linarith)
      unfold penY at h1
      rw [h2] at h1
      linarith

theorem pushFromX_of_ok {nodes : List Node} {s : Nat} {d : ℚ} {r : List Node}
    (h : pushFromX nodes s d = .ok r) :
    r = nodes.take s ++ (nodes.drop s).map (pushNodeX d) := by
  unfold pushFromX at h
  cases hp : pushUpX d (nodes.drop s) with
  | error e => rw [hp] at h; exact absurd h (by simp)
  | ok rest =>
    rw [hp] at h
    injection h with h
    rw [← h, pushUpX_of_ok d (nodes.drop s) rest hp]

theorem pushFromY_of_ok {nodes : List Node} {s : Nat} {d : ℚ} {r : List Node}
    (h : pushFromY nodes s d = .ok r) :
    r = nodes.take s ++ (nodes.drop s).map (pushNodeY d) := by
  unfold pushFromY at h
  cases hp : pushUpY d (nodes.drop s) with
  | error e => rw [hp] at h; exact absurd h (by simp)
  | ok rest =>
    rw [hp] at h
    injection h with h
    rw [← h, pushUpY_of_ok d (nodes.drop s) rest hp]

theorem pushFromX_length {nodes : List Node} {s : Nat} {d : ℚ} {r : List Node}
    (h : pushFromX nodes s d = .ok r) : r.length = nodes.length := by
  rw [pushFromX_of_ok h]
  simp only [List.length_append, List.length_take, List.length_map, List.length_drop]
  omega

theorem pushFromY_length {nodes : List Node} {s : Nat} {d : ℚ} {r : List Node}
    (h : pushFromY nodes s d = .ok r) : r.length = nodes.length := by
  rw [pushFromY_of_ok h]
  simp only [List.length_append, List.length_take, List.length_map, List.length_drop]
  omega

theorem scanXAux_fuel (p : ℚ) :
    ∀ f1 f2 (ns : List Node) (i : Nat), ns.length - i ≤ f1 → ns.length - i ≤ f2 →
      scanXAux p f1 ns i = scanXAux p f2 ns i := by
  intro f1
  induction f1 with
  | zero =>
    intro f2 ns i h1 h2
    cases f2 with
    | zero => rfl
    | succ f2 =>
      show Except.ok ns = scanXAux p (f2 + 1) ns i
      unfold scanXAux
      rw [if_neg (by omega)]
  | succ f1 ih =>
    intro f2 ns i h1 h2
    cases f2 with
    | zero =>
      show scanXAux p (f1 + 1) ns i = Except.ok ns
      unfold scanXAux
      rw [if_neg (by omega)]
    | succ f2 =>
      show scanXAux p (f1 + 1) ns i = scanXAux p (f2 + 1) ns i
      unfold scanXAux
      by_cases hi : i < ns.length - 1
      · rw [if_pos hi, if_pos hi]
        have hk := same_ge ns i eqX
        cases hp : pushFromX ns (same ns i eqX + 1) (groupMaxX ns p i (same ns i eqX)) with
        | error e => rfl
        | ok ns2 =>
          have hlen := pushFromX_length hp
          exact ih f2 ns2 (same ns i eqX + 1) (by omega) (by omega)
      · rw [if_neg hi, if_neg hi]

theorem scanYAux_fuel (p : ℚ) :
    ∀ f1 f2 (ns : List Node) (i : Nat), ns.length - i ≤ f1 → ns.length - i ≤ f2 →
      scanYAux p f1 ns i = scanYAux p f2 ns i := by
  intro f1
  induction f1 with
  | zero =>
    intro f2 ns i h1 h2
    cases f2 with
    | zero => rfl
    | succ f2 =>
      show Except.ok ns = scanYAux p (f2 + 1) ns i
      unfold scanYAux
      rw [if_neg (by omega)]
  | succ f1 ih =>
    intro f2 ns i h1 h2
    cases f2 with
    | zero =>
      show scanYAux p (f1 + 1) ns i = Except.ok ns
      unfold scanYAux
      rw [if_neg (by omega)]
    | succ f2 =>
      show scanYAux p (f1 + 1) ns i = scanYAux p (f2 + 1) ns i
      unfold scanYAux
      by_cases hi : i < ns.length - 1
      · rw [if_pos hi, if_pos hi]
        have hk := same_ge ns i eqY
        cases hp : pushFromY ns (same ns i eqY + 1) (groupMaxY ns p i (same ns i eqY)) with
        | error e => rfl
        | ok ns2 =>
          have hlen := pushFromY_length hp
          exact ih f2 ns2 (same ns i eqY + 1) (by omega) (by omega)
      · rw [if_neg hi, if_neg hi]

theorem pushNodeX_default (d : ℚ) : pushNodeX d default = default := rfl

theorem pushNodeY_default (d : ℚ) : pushNodeY d default = default := rfl

theorem scanXAux_frame (p : ℚ) :
    ∀ fuel (ns : List Node) (i : Nat) (ns' : List Node),
      scanXAux p fuel ns i = .ok ns' →
      ns'.length = ns.length ∧ ∀ j, ∃ d, nget ns' j = pushNodeX d (nget ns j) := by
  intro fuel
  induction fuel with
  | zero =>
    intro ns i ns' h
    injection h with h
    subst h
    exact ⟨rfl, fun j => ⟨0, (pushNodeX_zero _).symm⟩⟩
  | succ fuel ih =>
    intro ns i ns' h
    unfold scanXAux at h
    by_cases hi : i < ns.length - 1
    · rw [if_pos hi] at h
      set k := same ns i eqX with hk
      have hki : i ≤ k := same_ge ns i eqX
      have hkl : k ≤ ns.length - 1 := same_le ns i eqX (by omega)
      cases hp : pushFromX ns (k + 1) (groupMaxX ns p i k) with
      | error e => rw [hp] at h; exact absurd h (by simp)
      | ok ns2 =>
        rw [hp] at h
        simp only [] at h
        obtain ⟨hlen2, hframe2⟩ := ih ns2 (k + 1) ns' h
        have hlen : ns2.length = ns.length := pushFromX_length hp
        have hseg := pushFromX_of_ok hp
        refine ⟨by omega, fun j => ?_⟩
        obtain ⟨d2, hd2⟩ := hframe2 j
        by_cases hj : j < ns.length
        · by_cases hjk : j < k + 1
          · refine ⟨d2, ?_⟩
            rw [hd2, hseg, nget_pushSegX_lt (by omega) hjk]
          · refine ⟨groupMaxX ns p i k + d2, ?_⟩
            rw [hd2, hseg, nget_pushSegX_ge (by omega) hj, pushNodeX_comp]
        · refine ⟨0, ?_⟩
          have hg1 : nget ns2 j = default := nget_ge (by omega)
          have hg2 : nget ns j = default := nget_ge (by omega)
          rw [hd2, hg1, hg2, pushNodeX_default, pushNodeX_default]
    · rw [if_neg hi] at h
      injection h with h
      subst h
      exact ⟨rfl, fun j => ⟨0, (pushNodeX_zero _).symm⟩⟩

theorem scanYAux_frame (p : ℚ) :
    ∀ fuel (ns : List Node) (i : Nat) (ns' : List Node),
      scanYAux p fuel ns i = .ok ns' →
      ns'.length = ns.length ∧ ∀ j, ∃ d, nget ns' j = pushNodeY d (nget ns j) := by
  intro fuel
  induction fuel with
  | zero =>
    intro ns i ns' h
    injection h with h
    subst h
    exact ⟨rfl, fun j => ⟨0, (pushNodeY_zero _).symm⟩⟩
  | succ fuel ih =>
    intro ns i ns' h
    unfold scanYAux at h
    by_cases hi : i < ns.length - 1
    · rw [if_pos hi] at h
      set k := same ns i eqY with hk
      have hki : i ≤ k := same_ge ns i eqY
      have hkl : k ≤ ns.length - 1 := same_le ns i eqY (by omega)
      cases hp : pushFromY ns (k + 1) (groupMaxY ns p i k) with
      | error e => rw [hp] at h; exact absurd h (by simp)
      | ok ns2 =>
        rw [hp] at h
        simp only [] at h
        obtain ⟨hlen2, hframe2⟩ := ih ns2 (k + 1) ns' h
        have hlen : ns2.length = ns.length := pushFromY_length hp
        have hseg := pushFromY_of_ok hp
        refine ⟨by omega, fun j => ?_⟩
        obtain ⟨d2, hd2⟩ := hframe2 j
        by_cases hj : j < ns.length
        · by_cases hjk : j < k + 1
          · refine ⟨d2, ?_⟩
            rw [hd2, hseg, nget_pushSegY_lt (by omega) hjk]
          · refine ⟨groupMaxY ns p i k + d2, ?_⟩
            rw [hd2, hseg, nget_pushSegY_ge (by omega) hj, pushNodeY_comp]
        · refine ⟨0, ?_⟩
          have hg1 : nget ns2 j = default := nget_ge (by omega)
          have hg2 : nget ns j = default := nget_ge (by omega)
          rw [hd2, hg1, hg2, pushNodeY_default, pushNodeY_default]
    · rw [if_neg hi] at h
      injection h with h
      subst h
      exact ⟨rfl, fun j => ⟨0, (pushNodeY_zero _).symm⟩⟩

theorem eqX_true_iff {a b : Node} : eqX a b = true ↔ a.x = b.x := by
  simp [eqX]

theorem eqY_true_iff {a b : Node} : eqY a b = true ↔ a.y = b.y := by
  simp [eqY]

theorem sortedX_nget {ns : List Node} (hs : SortedX ns) :
    ∀ a b, a ≤ b → b < ns.length → (nget ns a).x ≤ (nget ns b).x := by
  intro a b hab hb
  rcases Nat.lt_or_ge a b with h | h
  · have hp := List.pairwise_iff_getElem.mp hs a b (by omega) hb h
    rw [nget_lt (by omega), nget_lt hb]
    exact hp
  · have : a = b := by omega
    rw [this]

theorem sortedY_nget {ns : List Node} (hs : SortedY ns) :
    ∀ a b, a ≤ b → b < ns.length → (nget ns a).y ≤ (nget ns b).y := by
  intro a b hab hb
  rcases Nat.lt_or_ge a b with h | h
  · have hp := List.pairwise_iff_getElem.mp hs a b (by omega) hb h
    rw [nget_lt (by omega), nget_lt hb]
    exact hp
  · have : a = b := by omega
    rw [this]

theorem AllUp_of_pointwise {ns ns2 : List Node}
    (hlen : ns2.length = ns.length)
    (hpt : ∀ j, j < ns.length → ∃ d, nget ns2 j = pushNodeX d (nget ns j) ∨
      nget ns2 j = pushNodeY d (nget ns j))
    (hu : AllUp ns) : AllUp ns2 := by
  intro n hn
  obtain ⟨j, hj, hget⟩ := nget_ex hn
  obtain ⟨d, hd⟩ := hpt j (by omega)
  have hmem : nget ns j ∈ ns := mem_of_nget (by omega)
  have hsome := hu _ hmem
  obtain ⟨u, hu⟩ := Option.isSome_iff_exists.mp hsome
  rcases hd with hd | hd
  · rw [← hget, hd]
    simp [pushNodeX, hu]
  · rw [← hget, hd]
    simp [pushNodeY, hu]

theorem SortedX_of_pointwise {ns ns2 : List Node}
    (hlen : ns2.length = ns.length)
    (hx : ∀ j, j < ns.length → (nget ns2 j).x = (nget ns j).x)
    (hs : SortedX ns) : SortedX ns2 := by
  rw [SortedX, List.Sorted, List.pairwise_iff_getElem]
  intro a b ha hb hab
  have h1 : (nget ns2 a).x = (nget ns a).x := hx a (by omega)
  have h2 : (nget ns2 b).x = (nget ns b).x := hx b (by omega)
  rw [nget_lt ha] at h1
  rw [nget_lt hb] at h2
  rw [h1, h2]
  exact sortedX_nget hs a b (le_of_lt hab) (by omega)

theorem SortedY_of_pointwise {ns ns2 : List Node}
    (hlen : ns2.length = ns.length)
    (hy : ∀ j, j < ns.length → (nget ns2 j).y = (nget ns j).y)
    (hs : SortedY ns) : SortedY ns2 := by
  rw [SortedY, List.Sorted, List.pairwise_iff_getElem]
  intro a b ha hb hab
  have h1 : (nget ns2 a).y = (nget ns a).y := hy a (by omega)
  have h2 : (nget ns2 b).y = (nget ns b).y := hy b (by omega)
  rw [nget_lt ha] at h1
  rw [nget_lt hb] at h2
  rw [h1, h2]
  exact sortedY_nget hs a b (le_of_lt hab) (by omega)

/-- Full specification of the x-scan loop on a sorted, staged list: it
succeeds and adds to each node's staged x a shift that is nonnegative,
zero below the cursor, monotone in the index, constant on equal-x nodes,
and dominates every pairwise `delta` x component between a group member at
or after the cursor and a node of strictly larger x. -/
theorem scanXAux_spec (p : ℚ) :
    ∀ fuel (ns : List Node) (i : Nat),
      ns.length - i ≤ fuel → SortedX ns → AllUp ns →
      ∃ (ns' : List Node) (F : Nat → ℚ),
        scanXAux p fuel ns i = .ok ns' ∧
        ns'.length = ns.length ∧
        (∀ j, nget ns' j = pushNodeX (F j) (nget ns j)) ∧
        (∀ j, 0 ≤ F j) ∧
        (∀ j, j < i → F j = 0) ∧
        (∀ a b, a ≤ b → b < ns.length → F a ≤ F b) ∧
        (∀ a b, a < ns.length → b < ns.length →
          (nget ns a).x = (nget ns b).x → F a = F b) ∧
        (∀ a b, i ≤ a → a < ns.length → b < ns.length →
          (nget ns a).x < (nget ns b).x →
          (delta (nget ns a) (nget ns b) p).x ≤ F b - F a) := by
  intro fuel
  induction fuel with
  | zero =>
    intro ns i hfuel hs hu
    refine ⟨ns, fun _ => 0, rfl, rfl, fun j => (pushNodeX_zero _).symm, fun j => le_refl 0,
      fun j _ => rfl, fun a b _ _ => le_refl 0, fun a b _ _ _ => rfl, ?_⟩
    intro a b hia ha hb hx
    omega
  | succ fuel ih =>
    intro ns i hfuel hs hu
    by_cases hi : i < ns.length - 1
    · set k := same ns i eqX with hkdef
      have hki : i ≤ k := same_ge ns i eqX
      have hkl : k ≤ ns.length - 1 := same_le ns i eqX (by omega)
      -- the tie group [i, k] has the x coordinate of nodes[i]
      have hgrp : ∀ a, i ≤ a → a ≤ k → (nget ns a).x = (nget ns i).x := by
        intro a h1 h2
        rcases Nat.eq_or_lt_of_le h1 with rfl | h1
        · rfl
        · exact (eqX_true_iff.mp (same_mem ns i eqX a h1 h2)).symm
      -- every node beyond the group has strictly larger x
      have hbey : ∀ b, k < b → b < ns.length → (nget ns i).x < (nget ns b).x := by
        intro b h1 h2
        rcases same_boundary ns i eqX (by omega) with hb | hb
        · rw [← hkdef] at hb; omega
        · rw [← hkdef] at hb
          have hne : (nget ns i).x ≠ (nget ns (k + 1)).x := by
            intro hcon
            rw [eqX_true_iff.mpr hcon] at hb
            exact Bool.noConfusion hb
          have hle1 : (nget ns i).x ≤ (nget ns (k + 1)).x :=
            sortedX_nget hs i (k + 1) (by omega) (by omega)
          have hle2 : (nget ns (k + 1)).x ≤ (nget ns b).x :=
            sortedX_nget hs (k + 1) b (by omega) h2
          rcases lt_or_eq_of_le hle1 with h | h
          · exact lt_of_lt_of_le h hle2
          · exact absurd h hne
      -- the group pairwise list is componentwise nonnegative
      have hdrop : ∀ n ∈ ns.drop (k + 1), n.up.isSome := by
        intro n hn
        exact hu n (List.drop_subset (k + 1) ns hn)
      have hmdlist : ∀ q ∈ pairsX ns p i k, 0 ≤ q := by
        intro q hq
        obtain ⟨m, j, h1, h2, h3, h4, rfl⟩ := mem_pairsX.mp hq
        have hxm : (nget ns m).x = (nget ns i).x := hgrp m h1 h2
        have hxj : (nget ns i).x < (nget ns j).x := hbey j (by omega) h4
        exact deltaX_nonneg (by rw [hxm]; exact hxj)
      have hmd0 : 0 ≤ groupMaxX ns p i k := by
        rw [groupMaxX_eq_foldl]
        exact foldl_maxMove_nonneg _ hmdlist
      have hmdge : ∀ q ∈ pairsX ns p i k, q ≤ groupMaxX ns p i k := by
        rw [groupMaxX_eq_foldl]
        exact foldl_maxMove_ge _ hmdlist
      set md := groupMaxX ns p i k with hmddef
      set seg := ns.take (k + 1) ++ (ns.drop (k + 1)).map (pushNodeX md) with hsegdef
      have hpush : pushFromX ns (k + 1) md = .ok seg := pushFromX_ok hdrop
      have hseglen : seg.length = ns.length := pushSegX_length
      have hsegget : ∀ j, j < ns.length →
          nget seg j = if k + 1 ≤ j then pushNodeX md (nget ns j) else nget ns j := by
        intro j hj
        by_cases hjk : k + 1 ≤ j
        · rw [if_pos hjk]
          exact nget_pushSegX_ge hjk hj
        · rw [if_neg hjk]
          exact nget_pushSegX_lt (by omega) (by omega)
      have hsegx : ∀ j, j < ns.length → (nget seg j).x = (nget ns j).x := by
        intro j hj
        rw [hsegget j hj]
        by_cases hjk : k + 1 ≤ j
        · rw [if_pos hjk]; rfl
        · rw [if_neg hjk]
      have hspt : ∀ j, j < ns.length →
          ∃ d, nget seg j = pushNodeX d (nget ns j) ∨
            nget seg j = pushNodeY d (nget ns j) := by
        intro j hj
        rw [hsegget j hj]
        by_cases hjk : k + 1 ≤ j
        · rw [if_pos hjk]; exact ⟨md, Or.inl rfl⟩
        · rw [if_neg hjk]; exact ⟨0, Or.inl (pushNodeX_zero _).symm⟩
      have hs2 : SortedX seg := SortedX_of_pointwise hseglen hsegx hs
      have hu2 : AllUp seg := AllUp_of_pointwise hseglen hspt hu
      obtain ⟨ns', F', hrun, hlen', hpt', hFn', hF0', hmono', heq', hpair'⟩ :=
        ih seg (k + 1) (by omega) hs2 hu2
      refine ⟨ns', fun j => (if k + 1 ≤ j ∧ j < ns.length then md else 0) + F' j,
        ?_, ?_, ?_, ?_, ?_, ?_, ?_, ?_⟩
      · show scanXAux p (fuel + 1) ns i = .ok ns'
        unfold scanXAux
        rw [if_pos hi, ← hkdef, ← hmddef, hpush]
        exact hrun
      · omega
      · intro j
        show nget ns' j =
          pushNodeX ((if k + 1 ≤ j ∧ j < ns.length then md else 0) + F' j) (nget ns j)
        rw [hpt' j]
        by_cases hj : j < ns.length
        · rw [hsegget j hj]
          by_cases hjk : k + 1 ≤ j
          · rw [if_pos hjk, if_pos (show k + 1 ≤ j ∧ j < ns.length from ⟨hjk, hj⟩),
              pushNodeX_comp]
          · rw [if_neg hjk,
              if_neg (show ¬(k + 1 ≤ j ∧ j < ns.length) from fun hc => hjk hc.1), zero_add]
        · have hg1 : nget seg j = default := nget_ge (by omega)
          have hg2 : nget ns j = default := nget_ge (by omega)
          rw [hg1, hg2, pushNodeX_default, pushNodeX_default]
      · intro j
        show 0 ≤ (if k + 1 ≤ j ∧ j < ns.length then md else 0) + F' j
        have h2 := hFn' j
        split_ifs with h
        · linarith
        · linarith
      · intro j hj
        show (if k + 1 ≤ j ∧ j < ns.length then md else 0) + F' j = 0
        rw [if_neg (show ¬(k + 1 ≤ j ∧ j < ns.length) by omega), hF0' j (by omega), add_zero]
      · intro a b hab hb
        have hm' : F' a ≤ F' b := hmono' a b hab (by omega)
        show (if k + 1 ≤ a ∧ a < ns.length then md else 0) + F' a ≤
          (if k + 1 ≤ b ∧ b < ns.length then md else 0) + F' b
        split_ifs with h1 h2 h2
        · linarith
        · exact absurd ⟨by omega, hb⟩ h2
        · linarith
        · linarith
      · intro a b ha hb hx
        have hseq : F' a = F' b := by
          apply heq' a b (by omega) (by omega)
          rw [hsegx a ha, hsegx b hb]; exact hx
        have hcross1 : ¬(k + 1 ≤ a ∧ ¬k + 1 ≤ b) := by
          rintro ⟨hak, hbk⟩
          have hxb : (nget ns b).x ≤ (nget ns i).x := by
            rcases Nat.lt_or_ge b i with h | h
            · exact sortedX_nget hs b i (by omega) (by omega)
            · exact le_of_eq (hgrp b h (by omega))
          have hxa : (nget ns i).x < (nget ns a).x := hbey a (by omega) ha
          rw [hx] at hxa
          linarith
        have hcross2 : ¬(¬k + 1 ≤ a ∧ k + 1 ≤ b) := by
          rintro ⟨hak, hbk⟩
          have hxa : (nget ns a).x ≤ (nget ns i).x := by
            rcases Nat.lt_or_ge a i with h | h
            · exact sortedX_nget hs a i (by omega) (by omega)
            · exact le_of_eq (hgrp a h (by omega))
          have hxb : (nget ns i).x < (nget ns b).x := hbey b (by omega) hb
          rw [← hx] at hxb
          linarith
        show (if k + 1 ≤ a ∧ a < ns.length then md else 0) + F' a =
          (if k + 1 ≤ b ∧ b < ns.length then md else 0) + F' b
        split_ifs with h1 h2 h2
        · rw [hseq]
        · exact absurd ⟨h1.1, fun hc => h2 ⟨hc, hb⟩⟩ hcross1
        · exact absurd ⟨fun hc => h1 ⟨hc, ha⟩, h2.1⟩ hcross2
        · rw [hseq]
      · intro a b hia ha hb hx
        have hab : a < b := by
          by_contra hc
          push_neg at hc
          have := sortedX_nget hs b a hc ha
          linarith
        show (delta (nget ns a) (nget ns b) p).x ≤
          ((if k + 1 ≤ b ∧ b < ns.length then md else 0) + F' b) -
            ((if k + 1 ≤ a ∧ a < ns.length then md else 0) + F' a)
        by_cases hak : k + 1 ≤ a
        · have hx2 : (nget seg a).x < (nget seg b).x := by
            rw [hsegx a ha, hsegx b hb]; exact hx
          have hp2 := hpair' a b hak (by omega) (by omega) hx2
          have hda : nget seg a = pushNodeX md (nget ns a) := by
            rw [hsegget a ha, if_pos hak]
          have hdb : nget seg b = pushNodeX md (nget ns b) := by
            rw [hsegget b hb, if_pos (show k + 1 ≤ b by omega)]
          rw [hda, hdb, delta_pushNodeX] at hp2
          rw [if_pos (show k + 1 ≤ a ∧ a < ns.length from ⟨hak, ha⟩),
            if_pos (show k + 1 ≤ b ∧ b < ns.length from ⟨by omega, hb⟩)]
          linarith
        · have hak' : a ≤ k := by omega
          have hbk : k + 1 ≤ b := by
            by_contra hc
            push_neg at hc
            have h1 : (nget ns a).x = (nget ns i).x := hgrp a hia hak'
            have h2 : (nget ns b).x = (nget ns i).x := hgrp b (by omega) (by omega)
            rw [h1, h2] at hx
            exact lt_irrefl _ hx
          have hFa : F' a = 0 := hF0' a (by omega)
          have hmem : (delta (nget ns a) (nget ns b) p).x ∈ pairsX ns p i k :=
            mem_pairsX.mpr ⟨a, b, hia, hak', hbk, hb, rfl⟩
          have h1 : (delta (nget ns a) (nget ns b) p).x ≤ md := hmdge _ hmem
          have h2 : 0 ≤ F' b := hFn' b
          rw [if_neg (show ¬(k + 1 ≤ a ∧ a < ns.length) from fun hc => hak hc.1),
            if_pos (show k + 1 ≤ b ∧ b < ns.length from ⟨hbk, hb⟩), hFa]
          linarith
    · refine ⟨ns, fun _ => 0, ?_, rfl, fun j => (pushNodeX_zero _).symm, fun j => le_refl 0,
        fun j _ => rfl, fun a b _ _ => le_refl 0, fun a b _ _ _ => rfl, ?_⟩
      · show scanXAux p (fuel + 1) ns i = .ok ns
        unfold scanXAux
        rw [if_neg hi]
      · intro a b hia ha hb hx
        have hab : a < b := by
          by_contra hc
          push_neg at hc
          have := sortedX_nget hs b a hc ha
          linarith
        omega

/-- Full specification of the y-scan loop on a sorted, staged list: it
succeeds and adds to each node's staged y a shift that is nonnegative,
zero below the cursor, monotone in the index, constant on equal-y nodes,
and dominates every pairwise `delta` y component between a group member at
or after the cursor and a node of strictly larger y. -/
theorem scanYAux_spec (p : ℚ) :
    ∀ fuel (ns : List Node) (i : Nat),
      ns.length - i ≤ fuel → SortedY ns → AllUp ns →
      ∃ (ns' : List Node) (F : Nat → ℚ),
        scanYAux p fuel ns i = .ok ns' ∧
        ns'.length = ns.length ∧
        (∀ j, nget ns' j = pushNodeY (F j) (nget ns j)) ∧
        (∀ j, 0 ≤ F j) ∧
        (∀ j, j < i → F j = 0) ∧
        (∀ a b, a ≤ b → b < ns.length → F a ≤ F b) ∧
        (∀ a b, a < ns.length → b < ns.length →
          (nget ns a).y = (nget ns b).y → F a = F b) ∧
        (∀ a b, i ≤ a → a < ns.length → b < ns.length →
          (nget ns a).y < (nget ns b).y →
          (delta (nget ns a) (nget ns b) p).y ≤ F b - F a) := by
  intro fuel
  induction fuel with
  | zero =>
    intro ns i hfuel hs hu
    refine ⟨ns, fun _ => 0, rfl, rfl, fun j => (pushNodeY_zero _).symm, fun j => le_refl 0,
      fun j _ => rfl, fun a b _ _ => le_refl 0, fun a b _ _ _ => rfl, ?_⟩
    intro a b hia ha hb hx
    omega
  | succ fuel ih =>
    intro ns i hfuel hs hu
    by_cases hi : i < ns.length - 1
    · set k := same ns i eqY with hkdef
      have hki : i ≤ k := same_ge ns i eqY
      have hkl : k ≤ ns.length - 1 := same_le ns i eqY (by omega)
      -- the tie group [i, k] has the y coordinate of nodes[i]
      have hgrp : ∀ a, i ≤ a → a ≤ k → (nget ns a).y = (nget ns i).y := by
        intro a h1 h2
        rcases Nat.eq_or_lt_of_le h1 with rfl | h1
        · rfl
        · exact (eqY_true_iff.mp (same_mem ns i eqY a h1 h2)).symm
      -- every node beyond the group has strictly larger y
      have hbey : ∀ b, k < b → b < ns.length → (nget ns i).y < (nget ns b).y := by
        intro b h1 h2
        rcases same_boundary ns i eqY (by omega) with hb | hb
        · rw [← hkdef] at hb; omega
        · rw [← hkdef] at hb
          have hne : (nget ns i).y ≠ (nget ns (k + 1)).y := by
            intro hcon
            rw [eqY_true_iff.mpr hcon] at hb
            exact Bool.noConfusion hb
          have hle1 : (nget ns i).y ≤ (nget ns (k + 1)).y :=
            sortedY_nget hs i (k + 1) (by omega) (by omega)
          have hle2 : (nget ns (k + 1)).y ≤ (nget ns b).y :=
            sortedY_nget hs (k + 1) b (by omega) h2
          rcases lt_or_eq_of_le hle1 with h | h
          · exact lt_of_lt_of_le h hle2
          · exact absurd h hne
      -- the group pairwise list is componentwise nonnegative
      have hdrop : ∀ n ∈ ns.drop (k + 1), n.up.isSome := by
        intro n hn
        exact hu n (List.drop_subset (k + 1) ns hn)
      have hmdlist : ∀ q ∈ pairsY ns p i k, 0 ≤ q := by
        intro q hq
        obtain ⟨m, j, h1, h2, h3, h4, rfl⟩ := mem_pairsY.mp hq
        have hxm : (nget ns m).y = (nget ns i).y := hgrp m h1 h2
        have hxj : (nget ns i).y < (nget ns j).y := hbey j (by omega) h4
        exact deltaY_nonneg (by rw [hxm]; exact hxj)
      have hmd0 : 0 ≤ groupMaxY ns p i k := by
        rw [groupMaxY_eq_foldl]
        exact foldl_maxMove_nonneg _ hmdlist
      have hmdge : ∀ q ∈ pairsY ns p i k, q ≤ groupMaxY ns p i k := by
        rw [groupMaxY_eq_foldl]
        exact foldl_maxMove_ge _ hmdlist
      set md := groupMaxY ns p i k with hmddef
      set seg := ns.take (k + 1) ++ (ns.drop (k + 1)).map (pushNodeY md) with hsegdef
      have hpush : pushFromY ns (k + 1) md = .ok seg := pushFromY_ok hdrop
      have hseglen : seg.length = ns.length := pushSegY_length
      have hsegget : ∀ j, j < ns.length →
          nget seg j = if k + 1 ≤ j then pushNodeY md (nget ns j) else nget ns j := by
        intro j hj
        by_cases hjk : k + 1 ≤ j
        · rw [if_pos hjk]
          exact nget_pushSegY_ge hjk hj
        · rw [if_neg hjk]
          exact nget_pushSegY_lt (by omega) (by omega)
      have hsegx : ∀ j, j < ns.length → (nget seg j).y = (nget ns j).y := by
        intro j hj
        rw [hsegget j hj]
        by_cases hjk : k + 1 ≤ j
        · rw [if_pos hjk]; rfl
        · rw [if_neg hjk]
      have hspt : ∀ j, j < ns.length →
          ∃ d, nget seg j = pushNodeX d (nget ns j) ∨
            nget seg j = pushNodeY d (nget ns j) := by
        intro j hj
        rw [hsegget j hj]
        by_cases hjk : k + 1 ≤ j
        · rw [if_pos hjk]; exact ⟨md, Or.inr rfl⟩
        · rw [if_neg hjk]; exact ⟨0, Or.inr (pushNodeY_zero _).symm⟩
      have hs2 : SortedY seg := SortedY_of_pointwise hseglen hsegx hs
      have hu2 : AllUp seg := AllUp_of_pointwise hseglen hspt hu
      obtain ⟨ns', F', hrun, hlen', hpt', hFn', hF0', hmono', heq', hpair'⟩ :=
        ih seg (k + 1) (by omega) hs2 hu2
      refine ⟨ns', fun j => (if k + 1 ≤ j ∧ j < ns.length then md else 0) + F' j,
        ?_, ?_, ?_, ?_, ?_, ?_, ?_, ?_⟩
      · show scanYAux p (fuel + 1) ns i = .ok ns'
        unfold scanYAux
        rw [if_pos hi, ← hkdef, ← hmddef, hpush]
        exact hrun
      · omega
      · intro j
        show nget ns' j =
          pushNodeY ((if k + 1 ≤ j ∧ j < ns.length then md else 0) + F' j) (nget ns j)
        rw [hpt' j]
        by_cases hj : j < ns.length
        · rw [hsegget j hj]
          by_cases hjk : k + 1 ≤ j
          · rw [if_pos hjk, if_pos (show k + 1 ≤ j ∧ j < ns.length from ⟨hjk, hj⟩),
              pushNodeY_comp]
          · rw [if_neg hjk,
              if_neg (show ¬(k + 1 ≤ j ∧ j < ns.length) from fun hc => hjk hc.1), zero_add]
        · have hg1 : nget seg j = default := nget_ge (by omega)
          have hg2 : nget ns j = default := nget_ge (by omega)
          rw [hg1, hg2, pushNodeY_default, pushNodeY_default]
      · intro j
        show 0 ≤ (if k + 1 ≤ j ∧ j < ns.length then md else 0) + F' j
        have h2 := hFn' j
        split_ifs with h
        · linarith
        · linarith
      · intro j hj
        show (if k + 1 ≤ j ∧ j < ns.length then md else 0) + F' j = 0
        rw [if_neg (show ¬(k + 1 ≤ j ∧ j < ns.length) by omega), hF0' j (by omega), add_zero]
      · intro a b hab hb
        have hm' : F' a ≤ F' b := hmono' a b hab (by omega)
        show (if k + 1 ≤ a ∧ a < ns.length then md else 0) + F' a ≤
          (if k + 1 ≤ b ∧ b < ns.length then md else 0) + F' b
        split_ifs with h1 h2 h2
        · linarith
        · exact absurd ⟨by omega, hb⟩ h2
        · linarith
        · linarith
      · intro a b ha hb hx
        have hseq : F' a = F' b := by
          apply heq' a b (by omega) (by omega)
          rw [hsegx a ha, hsegx b hb]; exact hx
        have hcross1 : ¬(k + 1 ≤ a ∧ ¬k + 1 ≤ b) := by
          rintro ⟨hak, hbk⟩
          have hxb : (nget ns b).y ≤ (nget ns i).y := by
            rcases Nat.lt_or_ge b i with h | h
            · exact sortedY_nget hs b i (by omega) (by omega)
            · exact le_of_eq (hgrp b h (by omega))
          have hxa : (nget ns i).y < (nget ns a).y := hbey a (by omega) ha
          rw [hx] at hxa
          linarith
        have hcross2 : ¬(¬k + 1 ≤ a ∧ k + 1 ≤ b) := by
          rintro ⟨hak, hbk⟩
          have hxa : (nget ns a).y ≤ (nget ns i).y := by
            rcases Nat.lt_or_ge a i with h | h
            · exact sortedY_nget hs a i (by omega) (by omega)
            · exact le_of_eq (hgrp a h (by omega))
          have hxb : (nget ns i).y < (nget ns b).y := hbey b (by omega) hb
          rw [← hx] at hxb
          linarith
        show (if k + 1 ≤ a ∧ a < ns.length then md else 0) + F' a =
          (if k + 1 ≤ b ∧ b < ns.length then md else 0) + F' b
        split_ifs with h1 h2 h2
        · rw [hseq]
        · exact absurd ⟨h1.1, fun hc => h2 ⟨hc, hb⟩⟩ hcross1
        · exact absurd ⟨fun hc => h1 ⟨hc, ha⟩, h2.1⟩ hcross2
        · rw [hseq]
      · intro a b hia ha hb hx
        have hab : a < b := by
          by_contra hc
          push_neg at hc
          have := sortedY_nget hs b a hc ha
          linarith
        show (delta (nget ns a) (nget ns b) p).y ≤
          ((if k + 1 ≤ b ∧ b < ns.length then md else 0) + F' b) -
            ((if k + 1 ≤ a ∧ a < ns.length then md else 0) + F' a)
        by_cases hak : k + 1 ≤ a
        · have hx2 : (nget seg a).y < (nget seg b).y := by
            rw [hsegx a ha, hsegx b hb]; exact hx
          have hp2 := hpair' a b hak (by omega) (by omega) hx2
          have hda : nget seg a = pushNodeY md (nget ns a) := by
            rw [hsegget a ha, if_pos hak]
          have hdb : nget seg b = pushNodeY md (nget ns b) := by
            rw [hsegget b hb, if_pos (show k + 1 ≤ b by omega)]
          rw [hda, hdb, delta_pushNodeY] at hp2
          rw [if_pos (show k + 1 ≤ a ∧ a < ns.length from ⟨hak, ha⟩),
            if_pos (show k + 1 ≤ b ∧ b < ns.length from ⟨by omega, hb⟩)]
          linarith
        · have hak' : a ≤ k := by omega
          have hbk : k + 1 ≤ b := by
            by_contra hc
            push_neg at hc
            have h1 : (nget ns a).y = (nget ns i).y := hgrp a hia hak'
            have h2 : (nget ns b).y = (nget ns i).y := hgrp b (by omega) (by omega)
            rw [h1, h2] at hx
            exact lt_irrefl _ hx
          have hFa : F' a = 0 := hF0' a (by omega)
          have hmem : (delta (nget ns a) (nget ns b) p).y ∈ pairsY ns p i k :=
            mem_pairsY.mpr ⟨a, b, hia, hak', hbk, hb, rfl⟩
          have h1 : (delta (nget ns a) (nget ns b) p).y ≤ md := hmdge _ hmem
          have h2 : 0 ≤ F' b := hFn' b
          rw [if_neg (show ¬(k + 1 ≤ a ∧ a < ns.length) from fun hc => hak hc.1),
            if_pos (show k + 1 ≤ b ∧ b < ns.length from ⟨hbk, hb⟩), hFa]
          linarith
    · refine ⟨ns, fun _ => 0, ?_, rfl, fun j => (pushNodeY_zero _).symm, fun j => le_refl 0,
        fun j _ => rfl, fun a b _ _ => le_refl 0, fun a b _ _ _ => rfl, ?_⟩
      · show scanYAux p (fuel + 1) ns i = .ok ns
        unfold scanYAux
        rw [if_neg hi]
      · intro a b hia ha hb hx
        have hab : a < b := by
          by_contra hc
          push_neg at hc
          have := sortedY_nget hs b a hc ha
          linarith
        omega

theorem sortByX_sorted (ns : List Node) : SortedX (sortByX ns) :=
  List.sorted_insertionSort _ ns

theorem sortByY_sorted (ns : List Node) : SortedY (sortByY ns) :=
  List.sorted_insertionSort _ ns

theorem sortByX_perm (ns : List Node) : List.Perm (sortByX ns) ns :=
  List.perm_insertionSort _ ns

theorem sortByY_perm (ns : List Node) : List.Perm (sortByY ns) ns :=
  List.perm_insertionSort _ ns

theorem AllUp_of_perm {l l' : List Node} (h : List.Perm l' l) (hu : AllUp l) :
    AllUp l' := fun n hn => hu n (h.subset hn)

theorem AllUp_initUp (nodes : List Node) : AllUp (nodes.map initUp) := by
  intro n hn
  obtain ⟨m, _, rfl⟩ := List.mem_map.mp hn
  simp [initUp]

theorem commit_ok : ∀ (l : List Node), AllUp l → commit l = .ok (l.map commitNode)
  | [], _ => rfl
  | n :: rest, h => by
    have hn : n.up.isSome := h n (List.mem_cons_self n rest)
    obtain ⟨u, hu⟩ := Option.isSome_iff_exists.mp hn
    have ih := commit_ok rest (fun m hm => h m (List.mem_cons_of_mem n hm))
    simp only [commit, hu, ih, List.map_cons]
    simp [commitNode, upxD, upyD, hu]

theorem map_id_eq {ns ns' : List Node} (hlen : ns'.length = ns.length)
    (hid : ∀ j, j < ns.length → (nget ns' j).id = (nget ns j).id) :
    ns'.map Node.id = ns.map Node.id := by
  apply List.ext_getElem
  · simp [hlen]
  · intro j h1 h2
    have hj : j < ns.length := by simpa using h2
    have := hid j hj
    rw [nget_lt (by omega), nget_lt hj] at this
    simpa using this

theorem delta_setUp (n m : Node) (u v : Option Pt) (p : ℚ) :
    delta { n with up := u } { m with up := v } p = delta n m p := rfl

theorem mem_id_unique {l : List Node} (hnd : (l.map Node.id).Nodup)
    {x y : Node} (hx : x ∈ l) (hy : y ∈ l) (hid : x.id = y.id) : x = y :=
  List.inj_on_of_nodup_map hnd hx hy hid

/-- `pfs` always succeeds, returns nodes with no staged position, and
permutes the node ids. -/
theorem pfs_ok (nodes : List Node) (p : ℚ) :
    ∃ res, pfs nodes p = .ok res ∧
      List.Perm (res.map Node.id) (nodes.map Node.id) ∧
      ∀ n ∈ res, n.up = none := by
  set L0 := nodes.map initUp with hL0
  set L1 := sortByX L0 with hL1
  have hperm1 : List.Perm L1 L0 := sortByX_perm L0
  have hs1 : SortedX L1 := sortByX_sorted L0
  have hu1 : AllUp L1 := AllUp_of_perm hperm1 (AllUp_initUp nodes)
  obtain ⟨L2, F, hrun2, hlen2, hpt2, _, _, _, _, _⟩ :=
    scanXAux_spec p L1.length L1 0 (by omega) hs1 hu1
  have hu2 : AllUp L2 :=
    AllUp_of_pointwise hlen2 (fun j _ => ⟨F j, Or.inl (hpt2 j)⟩) hu1
  set L3 := sortByY L2 with hL3
  have hperm3 : List.Perm L3 L2 := sortByY_perm L2
  have hs3 : SortedY L3 := sortByY_sorted L2
  have hu3 : AllUp L3 := AllUp_of_perm hperm3 hu2
  obtain ⟨L4, G, hrun4, hlen4, hpt4, _, _, _, _, _⟩ :=
    scanYAux_spec p L3.length L3 0 (by omega) hs3 hu3
  have hu4 : AllUp L4 :=
    AllUp_of_pointwise hlen4 (fun j _ => ⟨G j, Or.inr (hpt4 j)⟩) hu3
  have hcommit := commit_ok L4 hu4
  refine ⟨L4.map commitNode, ?_, ?_, ?_⟩
  · show pfs nodes p = .ok (L4.map commitNode)
    unfold pfs
    have h2 : scanX L1 p = .ok L2 := hrun2
    have h4 : scanY L3 p = .ok L4 := hrun4
    rw [← hL0, ← hL1]
    simp only [h2, ← hL3, h4, hcommit]
  · have e1 : (L4.map commitNode).map Node.id = L4.map Node.id := by
      rw [List.map_map]; rfl
    have e2 : L4.map Node.id = L3.map Node.id :=
      map_id_eq hlen4 (fun j _ => by rw [hpt4 j]; rfl)
    have e3 : L2.map Node.id = L1.map Node.id :=
      map_id_eq hlen2 (fun j _ => by rw [hpt2 j]; rfl)
    have e4 : L0.map Node.id = nodes.map Node.id := by
      rw [hL0, List.map_map]; rfl
    have hP : (L3.map Node.id).Perm (L0.map Node.id) := by
      have h1 := hperm3.map Node.id
      rw [e3] at h1
      exact h1.trans (hperm1.map Node.id)
    rw [e1, e2, ← e4]
    exact hP
  · intro n hn
    obtain ⟨m, _, rfl⟩ := List.mem_map.mp hn
    rfl

/-- Tracking two input nodes through a `pfs` run: both end up in the output
moved by nonnegative shifts, with the shift differences dominating the
pairwise `delta` components and respecting ties and order on each axis. -/
theorem pfs_pair_spec (nodes : List Node) (p : ℚ) (a b : Node)
    (ha : a ∈ nodes) (hb : b ∈ nodes) :
    ∃ (res : List Node) (dxa dya dxb dyb : ℚ),
      pfs nodes p = .ok res ∧
      0 ≤ dxa ∧ 0 ≤ dya ∧ 0 ≤ dxb ∧ 0 ≤ dyb ∧
      moved a dxa dya ∈ res ∧ moved b dxb dyb ∈ res ∧
      (a.x < b.x → (delta a b p).x ≤ dxb - dxa ∧ dxa ≤ dxb) ∧
      (a.x = b.x → dxa = dxb) ∧
      (a.y < b.y → (delta a b p).y ≤ dyb - dya ∧ dya ≤ dyb) ∧
      (a.y = b.y → dya = dyb) := by
  set L0 := nodes.map initUp with hL0
  set L1 := sortByX L0 with hL1
  have hperm1 : List.Perm L1 L0 := sortByX_perm L0
  have hs1 : SortedX L1 := sortByX_sorted L0
  have hu1 : AllUp L1 := AllUp_of_perm hperm1 (AllUp_initUp nodes)
  obtain ⟨L2, F, hrun2, hlen2, hpt2, hFn, _, hmono, heqF, hpairF⟩ :=
    scanXAux_spec p L1.length L1 0 (by omega) hs1 hu1
  have hu2 : AllUp L2 :=
    AllUp_of_pointwise hlen2 (fun j _ => ⟨F j, Or.inl (hpt2 j)⟩) hu1
  set L3 := sortByY L2 with hL3
  have hperm3 : List.Perm L3 L2 := sortByY_perm L2
  have hs3 : SortedY L3 := sortByY_sorted L2
  have hu3 : AllUp L3 := AllUp_of_perm hperm3 hu2
  obtain ⟨L4, G, hrun4, hlen4, hpt4, hGn, _, hmonoY, heqG, hpairG⟩ :=
    scanYAux_spec p L3.length L3 0 (by omega) hs3 hu3
  have hu4 : AllUp L4 :=
    AllUp_of_pointwise hlen4 (fun j _ => ⟨G j, Or.inr (hpt4 j)⟩) hu3
  have hcommit := commit_ok L4 hu4
  -- the indices of a and b in the x-sorted list
  obtain ⟨ia, hia, hgeta⟩ := nget_ex (hperm1.mem_iff.mpr (List.mem_map_of_mem initUp ha))
  obtain ⟨ib, hib, hgetb⟩ := nget_ex (hperm1.mem_iff.mpr (List.mem_map_of_mem initUp hb))
  -- their images after the x scan
  have hA2 : nget L2 ia = { a with up := some ⟨a.x + F ia, a.y⟩ } := by
    rw [hpt2 ia, hgeta]; rfl
  have hB2 : nget L2 ib = { b with up := some ⟨b.x + F ib, b.y⟩ } := by
    rw [hpt2 ib, hgetb]; rfl
  -- the indices of those images in the y-sorted list
  obtain ⟨ja, hja, hgeta3⟩ :=
    nget_ex (hperm3.mem_iff.mpr (hA2 ▸ mem_of_nget (by omega)))
  obtain ⟨jb, hjb, hgetb3⟩ :=
    nget_ex (hperm3.mem_iff.mpr (hB2 ▸ mem_of_nget (by omega)))
  have hA4 : nget L4 ja = { a with up := some ⟨a.x + F ia, a.y + G ja⟩ } := by
    rw [hpt4 ja, hgeta3]; rfl
  have hB4 : nget L4 jb = { b with up := some ⟨b.x + F ib, b.y + G jb⟩ } := by
    rw [hpt4 jb, hgetb3]; rfl
  refine ⟨L4.map commitNode, F ia, G ja, F ib, G jb, ?_, hFn ia, hGn ja, hFn ib, hGn jb,
    ?_, ?_, ?_, ?_, ?_, ?_⟩
  · unfold pfs
    have h2 : scanX L1 p = .ok L2 := hrun2
    have h4 : scanY L3 p = .ok L4 := hrun4
    rw [← hL0, ← hL1]
    simp only [h2, ← hL3, h4, hcommit]
  · have hmem4 : nget L4 ja ∈ L4 := mem_of_nget (by omega)
    have : commitNode (nget L4 ja) = moved a (F ia) (G ja) := by
      rw [hA4]; rfl
    rw [← this]
    exact List.mem_map_of_mem commitNode hmem4
  · have hmem4 : nget L4 jb ∈ L4 := mem_of_nget (by omega)
    have : commitNode (nget L4 jb) = moved b (F ib) (G jb) := by
      rw [hB4]; rfl
    rw [← this]
    exact List.mem_map_of_mem commitNode hmem4
  · -- x facts for a.x < b.x
    intro hx
    have hxa : (nget L1 ia).x = a.x := by rw [hgeta]; rfl
    have hxb : (nget L1 ib).x = b.x := by rw [hgetb]; rfl
    have hlt : (nget L1 ia).x < (nget L1 ib).x := by rw [hxa, hxb]; exact hx
    have hpair := hpairF ia ib (Nat.zero_le ia) hia hib hlt
    have hdab : delta (nget L1 ia) (nget L1 ib) p = delta a b p := by
      rw [hgeta, hgetb]
      exact delta_initUp p a b
    rw [hdab] at hpair
    have hile : ia ≤ ib := by
      by_contra hc
      push_neg at hc
      have := sortedX_nget hs1 ib ia (le_of_lt hc) hia
      rw [hxa, hxb] at this
      linarith
    exact ⟨hpair, hmono ia ib hile hib⟩
  · intro hx
    have hxa : (nget L1 ia).x = a.x := by rw [hgeta]; rfl
    have hxb : (nget L1 ib).x = b.x := by rw [hgetb]; rfl
    exact heqF ia ib hia hib (by rw [hxa, hxb]; exact hx)
  · -- y facts for a.y < b.y
    intro hy
    have hya : (nget L3 ja).y = a.y := by rw [hgeta3]
    have hyb : (nget L3 jb).y = b.y := by rw [hgetb3]
    have hlt : (nget L3 ja).y < (nget L3 jb).y := by rw [hya, hyb]; exact hy
    have hpair := hpairG ja jb (Nat.zero_le ja) hja hjb hlt
    have hdab : delta (nget L3 ja) (nget L3 jb) p = delta a b p := by
      rw [hgeta3, hgetb3]
      exact delta_setUp a b _ _ p
    rw [hdab] at hpair
    have hjle : ja ≤ jb := by
      by_contra hc
      push_neg at hc
      have := sortedY_nget hs3 jb ja (le_of_lt hc) hja
      rw [hya, hyb] at this
      linarith
    exact ⟨hpair, hmonoY ja jb hjle hjb⟩
  · intro hy
    have hya : (nget L3 ja).y = a.y := by rw [hgeta3]
    have hyb : (nget L3 jb).y = b.y := by rw [hgetb3]
    exact heqG ja jb hja hjb (by rw [hya, hyb]; exact hy)

theorem nodup_id_nget {ns : List Node} (hnd : (ns.map Node.id).Nodup)
    {m j : Nat} (hm : m < ns.length) (hj : j < ns.length) (hne : m ≠ j) :
    (nget ns m).id ≠ (nget ns j).id := by
  intro hcon
  have hinj := List.nodup_iff_injective_get.mp hnd
  have hmlen : m < (ns.map Node.id).length := by simpa using hm
  have hjlen : j < (ns.map Node.id).length := by simpa using hj
  have : (ns.map Node.id).get ⟨m, hmlen⟩ = (ns.map Node.id).get ⟨j, hjlen⟩ := by
    simp only [List.get_eq_getElem, List.getElem_map]
    rw [← nget_lt hm, ← nget_lt hj]
    exact hcon
  have := hinj this
  exact hne (by simpa using this)

theorem scanXAux_id (p : ℚ) :
    ∀ fuel (ns : List Node) (i : Nat), AllUp ns →
      (∀ m j, m < ns.length → j < ns.length → m < j →
        (delta (nget ns m) (nget ns j) p).x = 0) →
      scanXAux p fuel ns i = .ok ns := by
  intro fuel
  induction fuel with
  | zero => intro ns i _ _; rfl
  | succ fuel ih =>
    intro ns i hu hz
    unfold scanXAux
    by_cases hi : i < ns.length - 1
    · rw [if_pos hi]
      set k := same ns i eqX with hkdef
      have hki : i ≤ k := same_ge ns i eqX
      have hkl : k ≤ ns.length - 1 := same_le ns i eqX (by omega)
      have hmd : groupMaxX ns p i k = 0 := by
        rw [groupMaxX_eq_foldl]
        apply foldl_maxMove_zero
        intro d hd
        obtain ⟨m, j, h1, h2, h3, h4, rfl⟩ := mem_pairsX.mp hd
        exact hz m j (by omega) h4 (by omega)
      have hdrop : ∀ n ∈ ns.drop (k + 1), n.up.isSome :=
        fun n hn => hu n (List.drop_subset (k + 1) ns hn)
      have hpush : pushFromX ns (k + 1) (groupMaxX ns p i k) = .ok ns := by
        rw [hmd, pushFromX_ok hdrop]
        congr 1
        rw [List.map_congr_left (fun n _ => pushNodeX_zero n), List.map_id', List.take_append_drop]
      rw [hpush]
      exact ih ns (k + 1) hu hz
    · rw [if_neg hi]

theorem scanYAux_id (p : ℚ) :
    ∀ fuel (ns : List Node) (i : Nat), AllUp ns →
      (∀ m j, m < ns.length → j < ns.length → m < j →
        (delta (nget ns m) (nget ns j) p).y = 0) →
      scanYAux p fuel ns i = .ok ns := by
  intro fuel
  induction fuel with
  | zero => intro ns i _ _; rfl
  | succ fuel ih =>
    intro ns i hu hz
    unfold scanYAux
    by_cases hi : i < ns.length - 1
    · rw [if_pos hi]
      set k := same ns i eqY with hkdef
      have hki : i ≤ k := same_ge ns i eqY
      have hkl : k ≤ ns.length - 1 := same_le ns i eqY (by omega)
      have hmd : groupMaxY ns p i k = 0 := by
        rw [groupMaxY_eq_foldl]
        apply foldl_maxMove_zero
        intro d hd
        obtain ⟨m, j, h1, h2, h3, h4, rfl⟩ := mem_pairsY.mp hd
        exact hz m j (by omega) h4 (by omega)
      have hdrop : ∀ n ∈ ns.drop (k + 1), n.up.isSome :=
        fun n hn => hu n (List.drop_subset (k + 1) ns hn)
      have hpush : pushFromY ns (k + 1) (groupMaxY ns p i k) = .ok ns := by
        rw [hmd, pushFromY_ok hdrop]
        congr 1
        rw [List.map_congr_left (fun n _ => pushNodeY_zero n), List.map_id', List.take_append_drop]
      rw [hpush]
      exact ih ns (k + 1) hu hz
    · rw [if_neg hi]

/-- When no two distinct nodes overlap, `pfs` succeeds and keeps every
node's position: the output is exactly the input nodes (with the staged
position dropped), up to order. -/
theorem pfs_identity (nodes : List Node) (p : ℚ)
    (hnd : (nodes.map Node.id).Nodup)
    (hno : ∀ a b, a ∈ nodes → b ∈ nodes → a.id ≠ b.id → overlap a b p = false) :
    ∃ res, pfs nodes p = .ok res ∧
      (∀ n ∈ nodes, { n with up := none } ∈ res) ∧
      (∀ n' ∈ res, ∃ n, n ∈ nodes ∧ n' = { n with up := none }) ∧
      List.Perm res (nodes.map (fun n => { n with up := none })) := by
  set L0 := nodes.map initUp with hL0
  set L1 := sortByX L0 with hL1
  have hperm1 : List.Perm L1 L0 := sortByX_perm L0
  have hu1 : AllUp L1 := AllUp_of_perm hperm1 (AllUp_initUp nodes)
  have hmem1 : ∀ n' ∈ L1, ∃ n, n ∈ nodes ∧ n' = initUp n := by
    intro n' hn'
    obtain ⟨n, hn, heq⟩ := List.mem_map.mp (hperm1.subset hn')
    exact ⟨n, hn, heq.symm⟩
  have hid1 : (L1.map Node.id).Nodup := by
    have e4 : L0.map Node.id = nodes.map Node.id := by
      rw [hL0, List.map_map]; rfl
    have hp := hperm1.map Node.id
    rw [e4] at hp
    exact hp.nodup_iff.mpr hnd
  have hz1 : ∀ m j, m < L1.length → j < L1.length → m ≠ j →
      delta (nget L1 m) (nget L1 j) p = ⟨0, 0⟩ := by
    intro m j hm hj hne
    obtain ⟨nm, hnm, heqm⟩ := hmem1 _ (mem_of_nget hm)
    obtain ⟨nj, hnj, heqj⟩ := hmem1 _ (mem_of_nget hj)
    have hids : nm.id ≠ nj.id := by
      have := nodup_id_nget hid1 hm hj hne
      rw [heqm, heqj] at this
      exact this
    have hov := hno nm nj hnm hnj hids
    rw [heqm, heqj, delta_initUp]
    exact delta_of_no_overlap hov
  have hrun2 : scanX L1 p = .ok L1 :=
    scanXAux_id p L1.length L1 0 hu1
      (fun m j hm hj hmj => by rw [hz1 m j hm hj (by omega)])
  set L3 := sortByY L1 with hL3
  have hperm3 : List.Perm L3 L1 := sortByY_perm L1
  have hu3 : AllUp L3 := AllUp_of_perm hperm3 hu1
  have hmem3 : ∀ n' ∈ L3, ∃ n, n ∈ nodes ∧ n' = initUp n :=
    fun n' hn' => hmem1 n' (hperm3.subset hn')
  have hid3 : (L3.map Node.id).Nodup := (hperm3.map Node.id).nodup_iff.mpr hid1
  have hz3 : ∀ m j, m < L3.length → j < L3.length → m ≠ j →
      delta (nget L3 m) (nget L3 j) p = ⟨0, 0⟩ := by
    intro m j hm hj hne
    obtain ⟨nm, hnm, heqm⟩ := hmem3 _ (mem_of_nget hm)
    obtain ⟨nj, hnj, heqj⟩ := hmem3 _ (mem_of_nget hj)
    have hids : nm.id ≠ nj.id := by
      have := nodup_id_nget hid3 hm hj hne
      rw [heqm, heqj] at this
      exact this
    have hov := hno nm nj hnm hnj hids
    rw [heqm, heqj, delta_initUp]
    exact delta_of_no_overlap hov
  have hrun4 : scanY L3 p = .ok L3 :=
    scanYAux_id p L3.length L3 0 hu3
      (fun m j hm hj hmj => by rw [hz3 m j hm hj (by omega)])
  have hcommit := commit_ok L3 hu3
  refine ⟨L3.map commitNode, ?_, ?_, ?_, ?_⟩
  · unfold pfs
    rw [← hL0, ← hL1]
    simp only [hrun2, ← hL3, hrun4, hcommit]
  · intro n hn
    have h1 : initUp n ∈ L1 := hperm1.mem_iff.mpr (List.mem_map_of_mem initUp hn)
    have h3 : initUp n ∈ L3 := hperm3.mem_iff.mpr h1
    have : commitNode (initUp n) = { n with up := none } := rfl
    rw [← this]
    exact List.mem_map_of_mem commitNode h3
  · intro n' hn'
    obtain ⟨m, hm, rfl⟩ := List.mem_map.mp hn'
    obtain ⟨n, hn, rfl⟩ := hmem3 m hm
    exact ⟨n, hn, rfl⟩
  · have hp : List.Perm (L3.map commitNode) (L0.map commitNode) :=
      (hperm3.trans hperm1).map commitNode
    have he : L0.map commitNode = nodes.map (fun n => { n with up := none }) := by
      rw [hL0, List.map_map]
      exact List.map_congr_left (fun n _ => rfl)
    rw [← he]
    exact hp

theorem commit_error : ∀ (l : List Node), (∃ n ∈ l, n.up = none) →
    ∃ e, commit l = .error e
  | [], h => by simp at h
  | n :: rest, h => by
    cases hu : n.up with
    | none =>
      exact ⟨"cannot update undefined updated position for node", by simp [commit, hu]⟩
    | some u =>
      obtain ⟨m, hm, hmup⟩ := h
      rcases List.mem_cons.mp hm with rfl | hm
      · rw [hu] at hmup; exact absurd hmup (by simp)
      · obtain ⟨e, he⟩ := commit_error rest ⟨m, hm, hmup⟩
        exact ⟨e, by simp [commit, hu, he]⟩

/-- C9: the x scan only shifts staged x coordinates and the y scan only
shifts staged y coordinates: every output node equals the corresponding
input node with its staged position's scanned-axis coordinate translated;
current position, extent, id, the other staged coordinate and staged
presence are all untouched. -/
theorem claim_C9_scan_frame :
    ∀ (nodes : List Node) (padding : ℚ) (nodes2 : List Node),
      (scanX nodes padding = .ok nodes2 →
        nodes2.length = nodes.length ∧
        ∀ j, ∃ d, nget nodes2 j = pushNodeX d (nget nodes j)) ∧
      (scanY nodes padding = .ok nodes2 →
        nodes2.length = nodes.length ∧
        ∀ j, ∃ d, nget nodes2 j = pushNodeY d (nget nodes j)) :=
  fun nodes padding nodes2 =>
    ⟨fun h => scanXAux_frame padding nodes.length nodes 0 nodes2 h,
     fun h => scanYAux_frame padding nodes.length nodes 0 nodes2 h⟩

/-- C10: `same` returns an index between its argument and
`nodes.length - 1`, so the scan cursor `i = k + 1` strictly increases each
iteration and both scans finish within `nodes.length` loop iterations:
any fuel of at least `nodes.length` computes the same result. -/
theorem claim_C10_termination :
    (∀ (nodes : List Node) (index : Nat) (cb : Node → Node → Bool),
      index ≤ same nodes index cb) ∧
    (∀ (nodes : List Node) (index : Nat) (cb : Node → Node → Bool),
      index < nodes.length → same nodes index cb ≤ nodes.length - 1) ∧
    (∀ (nodes : List Node) (padding : ℚ) (fuel : Nat), nodes.length ≤ fuel →
      scanXAux padding fuel nodes 0 = scanX nodes padding) ∧
    (∀ (nodes : List Node) (padding : ℚ) (fuel : Nat), nodes.length ≤ fuel →
      scanYAux padding fuel nodes 0 = scanY nodes padding) :=
  ⟨same_ge, same_le,
   fun nodes padding fuel hf =>
     scanXAux_fuel padding fuel nodes.length nodes 0 (by omega) (by omega),
   fun nodes padding fuel hf =>
     scanYAux_fuel padding fuel nodes.length nodes 0 (by omega) (by omega)⟩

/-- C8: when a node whose staged position is absent is reached by a scan's
push loop or by the commit loop, the phase signals an error (the call does
not complete normally), and the enclosing scan iteration propagates it. -/
theorem claim_C8_missing_staged_error :
    (∀ (maxDelta : ℚ) (nodes : List Node) (start : Nat),
      (∃ n, n ∈ nodes.drop start ∧ n.up = none) →
      ∃ e, pushFromX nodes start maxDelta = .error e) ∧
    (∀ (maxDelta : ℚ) (nodes : List Node) (start : Nat),
      (∃ n, n ∈ nodes.drop start ∧ n.up = none) →
      ∃ e, pushFromY nodes start maxDelta = .error e) ∧
    (∀ (nodes : List Node), (∃ n, n ∈ nodes ∧ n.up = none) →
      ∃ e, commit nodes = .error e) ∧
    (∀ (nodes : List Node) (padding : ℚ) (i fuel : Nat), i < nodes.length - 1 →
      (∃ n, n ∈ nodes.drop (same nodes i eqX + 1) ∧ n.up = none) →
      ∃ e, scanXAux padding (fuel + 1) nodes i = .error e) ∧
    (∀ (nodes : List Node) (padding : ℚ) (i fuel : Nat), i < nodes.length - 1 →
      (∃ n, n ∈ nodes.drop (same nodes i eqY + 1) ∧ n.up = none) →
      ∃ e, scanYAux padding (fuel + 1) nodes i = .error e) := by
  have hx : ∀ (maxDelta : ℚ) (nodes : List Node) (start : Nat),
      (∃ n, n ∈ nodes.drop start ∧ n.up = none) →
      ∃ e, pushFromX nodes start maxDelta = .error e := by
    intro md nodes start h
    obtain ⟨e, he⟩ := pushUpX_error md (nodes.drop start) h
    exact ⟨e, by unfold pushFromX; rw [he]⟩
  have hy : ∀ (maxDelta : ℚ) (nodes : List Node) (start : Nat),
      (∃ n, n ∈ nodes.drop start ∧ n.up = none) →
      ∃ e, pushFromY nodes start maxDelta = .error e := by
    intro md nodes start h
    obtain ⟨e, he⟩ := pushUpY_error md (nodes.drop start) h
    exact ⟨e, by unfold pushFromY; rw [he]⟩
  refine ⟨hx, hy, fun nodes h => commit_error nodes h, ?_, ?_⟩
  · intro nodes padding i fuel hi h
    obtain ⟨e, he⟩ := hx (groupMaxX nodes padding i (same nodes i eqX)) nodes
      (same nodes i eqX + 1) h
    refine ⟨e, ?_⟩
    unfold scanXAux
    rw [if_pos hi, he]
  · intro nodes padding i fuel hi h
    obtain ⟨e, he⟩ := hy (groupMaxY nodes padding i (same nodes i eqY)) nodes
      (same nodes i eqY + 1) h
    refine ⟨e, ?_⟩
    unfold scanYAux
    rw [if_pos hi, he]

/-- C3: one iteration of an axis scan with tie group `[i, k]`
(`k = same nodes i ...`) adds `maxDelta` to the staged scanned-axis
coordinate of exactly the nodes with index greater than `k`, leaves indices
up to `k` (the group included) untouched, and continues at cursor `k + 1`. -/
theorem claim_C3_push_exactly_beyond_group :
    ∀ (nodes : List Node) (padding : ℚ) (i fuel : Nat),
      AllUp nodes → i < nodes.length - 1 →
      (∃ nodes2,
        pushFromX nodes (same nodes i eqX + 1)
          (groupMaxX nodes padding i (same nodes i eqX)) = .ok nodes2 ∧
        scanXAux padding (fuel + 1) nodes i =
          scanXAux padding fuel nodes2 (same nodes i eqX + 1) ∧
        (∀ j, j ≤ same nodes i eqX → nget nodes2 j = nget nodes j) ∧
        (∀ j, same nodes i eqX < j → j < nodes.length →
          nget nodes2 j =
            pushNodeX (groupMaxX nodes padding i (same nodes i eqX)) (nget nodes j))) ∧
      (∃ nodes2,
        pushFromY nodes (same nodes i eqY + 1)
          (groupMaxY nodes padding i (same nodes i eqY)) = .ok nodes2 ∧
        scanYAux padding (fuel + 1) nodes i =
          scanYAux padding fuel nodes2 (same nodes i eqY + 1) ∧
        (∀ j, j ≤ same nodes i eqY → nget nodes2 j = nget nodes j) ∧
        (∀ j, same nodes i eqY < j → j < nodes.length →
          nget nodes2 j =
            pushNodeY (groupMaxY nodes padding i (same nodes i eqY)) (nget nodes j))) := by
  intro nodes padding i fuel hu hi
  constructor
  · set k := same nodes i eqX with hk
    have hki : i ≤ k := same_ge nodes i eqX
    have hkl : k ≤ nodes.length - 1 := same_le nodes i eqX (by omega)
    have hdrop : ∀ n ∈ nodes.drop (k + 1), n.up.isSome :=
      fun n hn => hu n (List.drop_subset (k + 1) nodes hn)
    have hpush := @pushFromX_ok nodes (k + 1) (groupMaxX nodes padding i k) hdrop
    refine ⟨_, hpush, ?_, ?_, ?_⟩
    · conv_lhs => unfold scanXAux
      rw [if_pos hi, hpush]
    · intro j hj
      exact nget_pushSegX_lt (by omega) (by omega)
    · intro j hj1 hj2
      exact nget_pushSegX_ge (by omega) hj2
  · set k := same nodes i eqY with hk
    have hki : i ≤ k := same_ge nodes i eqY
    have hkl : k ≤ nodes.length - 1 := same_le nodes i eqY (by omega)
    have hdrop : ∀ n ∈ nodes.drop (k + 1), n.up.isSome :=
      fun n hn => hu n (List.drop_subset (k + 1) nodes hn)
    have hpush := @pushFromY_ok nodes (k + 1) (groupMaxY nodes padding i k) hdrop
    refine ⟨_, hpush, ?_, ?_, ?_⟩
    · conv_lhs => unfold scanYAux
      rw [if_pos hi, hpush]
    · intro j hj
      exact nget_pushSegY_lt (by omega) (by omega)
    · intro j hj1 hj2
      exact nget_pushSegY_ge (by omega) hj2

/-- C5: the shift a tie group applies is the single pairwise delta of
greatest absolute value among those examined, in iteration order: the
result is an element of the examined list, every examined delta has
absolute value at most the result's, and every delta seen before the
chosen one has strictly smaller absolute value (a later tie never
overwrites the first maximum). -/
theorem claim_C5_max_magnitude_first_seen :
    ∀ (nodes : List Node) (padding : ℚ) (i k : Nat),
      (pairsX nodes padding i k ≠ [] →
        ∃ n, n < (pairsX nodes padding i k).length ∧
          groupMaxX nodes padding i k = (pairsX nodes padding i k).getD n 0 ∧
          (∀ d ∈ pairsX nodes padding i k,
            |d| ≤ |(pairsX nodes padding i k).getD n 0|) ∧
          (∀ m, m < n →
            |(pairsX nodes padding i k).getD m 0| <
              |(pairsX nodes padding i k).getD n 0|)) ∧
      (pairsY nodes padding i k ≠ [] →
        ∃ n, n < (pairsY nodes padding i k).length ∧
          groupMaxY nodes padding i k = (pairsY nodes padding i k).getD n 0 ∧
          (∀ d ∈ pairsY nodes padding i k,
            |d| ≤ |(pairsY nodes padding i k).getD n 0|) ∧
          (∀ m, m < n →
            |(pairsY nodes padding i k).getD m 0| <
              |(pairsY nodes padding i k).getD n 0|)) := by
  intro nodes padding i k
  constructor
  · intro hne
    rw [groupMaxX_eq_foldl]
    set l := pairsX nodes padding i k with hl
    rcases foldl_maxMove_cases l 0 with ⟨hres, hall⟩ | ⟨n, hn, hres, _, hpre, hall⟩
    · have hlen0 : 0 < l.length := List.length_pos.mpr hne
      have hmem0 : l.getD 0 0 ∈ l := by
        rw [List.getD_eq_getElem l 0 hlen0]
        exact List.getElem_mem hlen0
      have h0 : |l.getD 0 0| ≤ 0 := by simpa using hall _ hmem0
      have h00 : l.getD 0 0 = 0 := abs_eq_zero.mp (le_antisymm h0 (abs_nonneg _))
      refine ⟨0, hlen0, ?_, ?_, ?_⟩
      · rw [hres, h00]
      · intro d hd
        have := hall d hd
        rw [h00, abs_zero]
        simpa using this
      · intro m hm; omega
    · exact ⟨n, hn, hres, hall, hpre⟩
  · intro hne
    rw [groupMaxY_eq_foldl]
    set l := pairsY nodes padding i k with hl
    rcases foldl_maxMove_cases l 0 with ⟨hres, hall⟩ | ⟨n, hn, hres, _, hpre, hall⟩
    · have hlen0 : 0 < l.length := List.length_pos.mpr hne
      have hmem0 : l.getD 0 0 ∈ l := by
        rw [List.getD_eq_getElem l 0 hlen0]
        exact List.getElem_mem hlen0
      have h0 : |l.getD 0 0| ≤ 0 := by simpa using hall _ hmem0
      have h00 : l.getD 0 0 = 0 := abs_eq_zero.mp (le_antisymm h0 (abs_nonneg _))
      refine ⟨0, hlen0, ?_, ?_, ?_⟩
      · rw [hres, h00]
      · intro d hd
        have := hall d hd
        rw [h00, abs_zero]
        simpa using this
      · intro m hm; omega
    · exact ⟨n, hn, hres, hall, hpre⟩

theorem penX_comm (a b : Node) (p : ℚ) : penX a b p = penX b a p := by
  unfold penX thrX
  rw [abs_sub_comm]
  ring_nf

theorem penY_comm (a b : Node) (p : ℚ) : penY a b p = penY b a p := by
  unfold penY thrY
  rw [abs_sub_comm]
  ring_nf

theorem overlap_comm (a b : Node) (p : ℚ) : overlap a b p = overlap b a p := by
  unfold overlap
  rw [penX_comm, penY_comm]

theorem moved_x (n : Node) (dx dy : ℚ) : (moved n dx dy).x = n.x + dx := rfl
theorem moved_y (n : Node) (dx dy : ℚ) : (moved n dx dy).y = n.y + dy := rfl
theorem moved_id (n : Node) (dx dy : ℚ) : (moved n dx dy).id = n.id := rfl

theorem overlap_moved_false {a b : Node} {dxa dya dxb dyb p : ℚ}
    (h : thrX a b p ≤ |b.x + dxb - (a.x + dxa)| ∨
      thrY a b p ≤ |b.y + dyb - (a.y + dya)|) :
    overlap (moved a dxa dya) (moved b dxb dyb) p = false := by
  rw [overlap_false_iff]
  rcases h with h | h
  · left
    have e : penX (moved a dxa dya) (moved b dxb dyb) p =
        thrX a b p - |b.x + dxb - (a.x + dxa)| := rfl
    rw [e]
    linarith
  · right
    have e : penY (moved a dxa dya) (moved b dxb dyb) p =
        thrY a b p - |b.y + dyb - (a.y + dya)| := rfl
    rw [e]
    linarith

theorem moved_inj {n : Node} {d1 e1 d2 e2 : ℚ} (h : moved n d1 e1 = moved n d2 e2) :
    d1 = d2 ∧ e1 = e2 := by
  constructor
  · have := congrArg Node.x h
    rw [moved_x, moved_x] at this
    linarith
  · have := congrArg Node.y h
    rw [moved_y, moved_y] at this
    linarith

/-- Both orientations of the pair tracking, with unique output images. -/
theorem pfs_pair_shifts (nodes : List Node) (p : ℚ)
    (hnd : (nodes.map Node.id).Nodup) (a b : Node)
    (ha : a ∈ nodes) (hb : b ∈ nodes) (hid : a.id ≠ b.id)
    {res : List Node} (hres : pfs nodes p = .ok res) :
    ∃ dxa dya dxb dyb : ℚ,
      0 ≤ dxa ∧ 0 ≤ dya ∧ 0 ≤ dxb ∧ 0 ≤ dyb ∧
      moved a dxa dya ∈ res ∧ moved b dxb dyb ∈ res ∧
      (∀ a' ∈ res, a'.id = a.id → a' = moved a dxa dya) ∧
      (∀ b' ∈ res, b'.id = b.id → b' = moved b dxb dyb) ∧
      (a.x < b.x → (delta a b p).x ≤ dxb - dxa ∧ dxa ≤ dxb) ∧
      (a.x = b.x → dxa = dxb) ∧
      (a.y < b.y → (delta a b p).y ≤ dyb - dya ∧ dya ≤ dyb) ∧
      (a.y = b.y → dya = dyb) ∧
      (b.x < a.x → (delta b a p).x ≤ dxa - dxb ∧ dxb ≤ dxa) ∧
      (b.y < a.y → (delta b a p).y ≤ dya - dyb ∧ dyb ≤ dya) := by
  obtain ⟨res0, hok0, hperm, _⟩ := pfs_ok nodes p
  rw [hres] at hok0
  injection hok0 with hres0
  subst hres0
  have hndres : (res.map Node.id).Nodup := hperm.nodup_iff.mpr hnd
  obtain ⟨res1, dxa, dya, dxb, dyb, hok1, h1, h2, h3, h4, hma, hmb, hxlt, hxeq, hylt, hyeq⟩ :=
    pfs_pair_spec nodes p a b ha hb
  rw [hres] at hok1
  injection hok1 with hres1
  subst hres1
  obtain ⟨res2, dxb2, dyb2, dxa2, dya2, hok2, _, _, _, _, hmb2, hma2, hxlt2, _, hylt2, _⟩ :=
    pfs_pair_spec nodes p b a hb ha
  rw [hres] at hok2
  injection hok2 with hres2
  subst hres2
  have hea : moved a dxa2 dya2 = moved a dxa dya :=
    mem_id_unique hndres hma2 hma rfl
  obtain ⟨hedx, hedy⟩ := moved_inj hea
  have heb : moved b dxb2 dyb2 = moved b dxb dyb :=
    mem_id_unique hndres hmb2 hmb rfl
  obtain ⟨hedxb, hedyb⟩ := moved_inj heb
  refine ⟨dxa, dya, dxb, dyb, h1, h2, h3, h4, hma, hmb, ?_, ?_, hxlt, hxeq, hylt, hyeq,
    ?_, ?_⟩
  · intro a' ha' hida
    exact mem_id_unique hndres ha' hma (by rw [hida]; rfl)
  · intro b' hb' hidb
    exact mem_id_unique hndres hb' hmb (by rw [hidb]; rfl)
  · intro hx
    obtain ⟨hd, hm⟩ := hxlt2 hx
    rw [hedx, hedxb] at hd
    rw [hedx, hedxb] at hm
    exact ⟨hd, hm⟩
  · intro hy
    obtain ⟨hd, hm⟩ := hylt2 hy
    rw [hedy, hedyb] at hd
    rw [hedy, hedyb] at hm
    exact ⟨hd, hm⟩

/-- C2: relative order on each axis never inverts: if `a.x < b.x` before
`pfs` then the updated node with `a`'s id has x at most that of the node
with `b`'s id, and likewise on y. -/
theorem claim_C2_order_preservation :
    ∀ (nodes : List Node) (padding : ℚ), 0 ≤ padding →
      (nodes.map Node.id).Nodup →
      ∀ res, pfs nodes padding = .ok res →
      ∀ a b a' b', a ∈ nodes → b ∈ nodes → a' ∈ res → b' ∈ res →
        a'.id = a.id → b'.id = b.id →
        (a.x < b.x → a'.x ≤ b'.x) ∧ (a.y < b.y → a'.y ≤ b'.y) := by
  intro nodes padding hp hnd res hres a b a' b' ha hb ha' hb' hida hidb
  by_cases hid : a.id = b.id
  · -- same id: then a' and b' coincide
    have : a'.id = b'.id := by rw [hida, hidb, hid]
    obtain ⟨res0, hok0, hperm, _⟩ := pfs_ok nodes padding
    rw [hres] at hok0
    injection hok0 with h0
    subst h0
    have hndres : (res.map Node.id).Nodup := hperm.nodup_iff.mpr hnd
    have heq : a' = b' := mem_id_unique hndres ha' hb' this
    subst heq
    constructor <;> intro <;> rfl
  · obtain ⟨dxa, dya, dxb, dyb, h1, h2, h3, h4, hma, hmb, hua, hub,
      hxlt, _, hylt, _, _, _⟩ :=
      pfs_pair_shifts nodes padding hnd a b ha hb hid hres
    have hea : a' = moved a dxa dya := hua a' ha' hida
    have heb : b' = moved b dxb dyb := hub b' hb' hidb
    subst hea
    subst heb
    constructor
    · intro hx
      obtain ⟨_, hm⟩ := hxlt hx
      rw [moved_x, moved_x]
      linarith
    · intro hy
      obtain ⟨_, hm⟩ := hylt hy
      rw [moved_y, moved_y]
      linarith

/-- C1 (amended): after `pfs`, a pair of distinct nodes is overlap-free
provided it was separable: it either did not overlap initially, or its
coordinates differ on its axis of least overlap.  (A pair tied on its
least-overlap axis — e.g. two coincident nodes — can stay overlapping.) -/
theorem claim_C1_no_residual_overlap_amended :
    ∀ (nodes : List Node) (padding : ℚ), 0 ≤ padding →
      (nodes.map Node.id).Nodup →
      ∀ a b, a ∈ nodes → b ∈ nodes → a.id ≠ b.id → sepAxisOK a b padding →
      ∀ res a' b', pfs nodes padding = .ok res → a' ∈ res → b' ∈ res →
        a'.id = a.id → b'.id = b.id →
        overlap a' b' padding = false := by
  intro nodes padding hp hnd a b ha hb hid hsep res a' b' hres ha' hb' hida hidb
  obtain ⟨dxa, dya, dxb, dyb, h0a, h0ya, h0b, h0yb, hma, hmb, hua, hub,
    hxlt, hxeq, hylt, hyeq, hxgt, hygt⟩ :=
    pfs_pair_shifts nodes padding hnd a b ha hb hid hres
  rw [hua a' ha' hida, hub b' hb' hidb]
  apply overlap_moved_false
  have hxabs : |b.x - a.x| ≤ |b.x + dxb - (a.x + dxa)| := by
    rcases lt_trichotomy a.x b.x with h | h | h
    · obtain ⟨_, hm⟩ := hxlt h
      rw [abs_of_pos (show (0:ℚ) < b.x - a.x by linarith),
        abs_of_pos (show (0:ℚ) < b.x + dxb - (a.x + dxa) by linarith)]
      linarith
    · have heq := hxeq h
      have e : b.x + dxb - (a.x + dxa) = b.x - a.x := by rw [heq]; ring
      rw [e]
    · obtain ⟨_, hm⟩ := hxgt h
      rw [abs_of_neg (show b.x - a.x < 0 by linarith),
        abs_of_neg (show b.x + dxb - (a.x + dxa) < 0 by linarith)]
      linarith
  have hyabs : |b.y - a.y| ≤ |b.y + dyb - (a.y + dya)| := by
    rcases lt_trichotomy a.y b.y with h | h | h
    · obtain ⟨_, hm⟩ := hylt h
      rw [abs_of_pos (show (0:ℚ) < b.y - a.y by linarith),
        abs_of_pos (show (0:ℚ) < b.y + dyb - (a.y + dya) by linarith)]
      linarith
    · have heq := hyeq h
      have e : b.y + dyb - (a.y + dya) = b.y - a.y := by rw [heq]; ring
      rw [e]
    · obtain ⟨_, hm⟩ := hygt h
      rw [abs_of_neg (show b.y - a.y < 0 by linarith),
        abs_of_neg (show b.y + dyb - (a.y + dya) < 0 by linarith)]
      linarith
  by_cases hovf : overlap a b padding = false
  · rcases overlap_false_iff.mp hovf with h | h
    · left
      have h2 : thrX a b padding ≤ |b.x - a.x| := by
        unfold penX at h; linarith
      linarith
    · right
      have h2 : thrY a b padding ≤ |b.y - a.y| := by
        unfold penY at h; linarith
      linarith
  · have hov : overlap a b padding = true := by
      revert hovf; cases overlap a b padding <;> simp
    rcases hsep with hsepov | ⟨hpen, hxne⟩ | ⟨hpen, hyne⟩
    · exact absurd hsepov hovf
    · left
      rcases lt_or_gt_of_ne hxne with hx | hx
      · have hdx := deltaX_of_mtvX hov hpen hx
        obtain ⟨hd, _⟩ := hxlt hx
        rw [hdx] at hd
        calc thrX a b padding ≤ b.x + dxb - (a.x + dxa) := by linarith
          _ ≤ |b.x + dxb - (a.x + dxa)| := le_abs_self _
      · have hov2 : overlap b a padding = true := by rw [overlap_comm]; exact hov
        have hpen2 : penX b a padding ≤ penY b a padding := by
          rw [← penX_comm, ← penY_comm]; exact hpen
        have hdx := deltaX_of_mtvX hov2 hpen2 hx
        obtain ⟨hd, _⟩ := hxgt hx
        rw [hdx] at hd
        have hth : thrX b a padding = thrX a b padding := by unfold thrX; ring_nf
        calc thrX a b padding ≤ -(b.x + dxb - (a.x + dxa)) := by rw [← hth]; linarith
          _ ≤ |b.x + dxb - (a.x + dxa)| := neg_le_abs _
    · right
      rcases lt_or_gt_of_ne hyne with hy | hy
      · have hdy := deltaY_of_mtvY hov (not_le.mpr hpen) hy
        obtain ⟨hd, _⟩ := hylt hy
        rw [hdy] at hd
        calc thrY a b padding ≤ b.y + dyb - (a.y + dya) := by linarith
          _ ≤ |b.y + dyb - (a.y + dya)| := le_abs_self _
      · have hov2 : overlap b a padding = true := by rw [overlap_comm]; exact hov
        have hpen2 : ¬penX b a padding ≤ penY b a padding := by
          rw [← penX_comm, ← penY_comm]; exact not_le.mpr hpen
        have hdy := deltaY_of_mtvY hov2 hpen2 hy
        obtain ⟨hd, _⟩ := hygt hy
        rw [hdy] at hd
        have hth : thrY b a padding = thrY a b padding := by unfold thrY; ring_nf
        calc thrY a b padding ≤ -(b.y + dyb - (a.y + dya)) := by rw [← hth]; linarith
          _ ≤ |b.y + dyb - (a.y + dya)| := neg_le_abs _

theorem up_none_eta {n : Node} (h : n.up = none) : { n with up := none } = n := by
  cases n with
  | mk i x y w hh u =>
    have h2 : u = none := h
    subst h2
    rfl

/-- C6: on an input where no two distinct nodes overlap, `pfs` succeeds and
every node keeps its exact position (the output is the input with staged
positions dropped); the empty list and a single node are error-free no-ops. -/
theorem claim_C6_identity_on_no_overlap :
    (∀ (nodes : List Node) (padding : ℚ),
      (nodes.map Node.id).Nodup →
      (∀ a b, a ∈ nodes → b ∈ nodes → a.id ≠ b.id → overlap a b padding = false) →
      ∃ res, pfs nodes padding = .ok res ∧
        (∀ n ∈ nodes, { n with up := none } ∈ res) ∧
        (∀ n' ∈ res, ∃ n, n ∈ nodes ∧ n' = { n with up := none })) ∧
    (∀ padding : ℚ, pfs [] padding = .ok []) ∧
    (∀ (n : Node) (padding : ℚ), n.up = none → pfs [n] padding = .ok [n]) := by
  refine ⟨?_, ?_, ?_⟩
  · intro nodes padding hnd hno
    obtain ⟨res, h1, h2, h3, _⟩ := pfs_identity nodes padding hnd hno
    exact ⟨res, h1, h2, h3⟩
  · intro padding
    rfl
  · intro n padding hup
    cases n with
    | mk i x y w h u =>
      have h2 : u = none := hup
      subst h2
      rfl

/-- C7 (amended): a second `pfs` run is a no-op (up to the reordering the
sorts perform) provided the first run's output is overlap-free; general
idempotence fails when a residual overlap remains (see the
counterexample). -/
theorem claim_C7_idempotence_amended :
    ∀ (nodes : List Node) (padding : ℚ) (res : List Node),
      (nodes.map Node.id).Nodup →
      pfs nodes padding = .ok res →
      (∀ a b, a ∈ res → b ∈ res → a.id ≠ b.id → overlap a b padding = false) →
      ∃ res2, pfs res padding = .ok res2 ∧ List.Perm res2 res := by
  intro nodes padding res hnd hres hno
  obtain ⟨res0, hok0, hperm, hupnone⟩ := pfs_ok nodes padding
  rw [hres] at hok0
  injection hok0 with h0
  subst h0
  have hndres : (res.map Node.id).Nodup := hperm.nodup_iff.mpr hnd
  obtain ⟨res2, h1, _, _, h4⟩ := pfs_identity res padding hndres hno
  refine ⟨res2, h1, ?_⟩
  have he : res.map (fun n => { n with up := none }) = res := by
    have e1 : res.map (fun n => { n with up := none }) = res.map id :=
      List.map_congr_left (fun n hn => up_none_eta (hupnone n hn))
    rw [e1, List.map_id]
  rw [he] at h4
  exact h4

/-- C4 (amended): with three nodes tied on x forming the first tie group
and a fourth node of strictly larger x, the x pass leaves the three group
nodes' staged positions untouched (they all receive the same, zero, shift)
and adds the computed `maxDelta` to the staged x of the fourth node. -/
theorem claim_C4_tie_group_amended :
    ∀ (m1 m2 m3 m4 : Node) (padding : ℚ) (u4 : Pt),
      m1.up.isSome → m2.up.isSome → m3.up.isSome → m4.up = some u4 →
      m1.x = m2.x → m1.x = m3.x → m1.x < m4.x →
      overlap m1 m4 padding = true →
      scanX [m1, m2, m3, m4] padding =
        .ok [m1, m2, m3,
          { m4 with
            up := some ⟨u4.x + groupMaxX [m1, m2, m3, m4] padding 0 2, u4.y⟩ }] := by
  intro m1 m2 m3 m4 padding u4 hu1 hu2 hu3 hu4 hx12 hx13 hx14 hov
  have e12 : eqX m1 m2 = true := eqX_true_iff.mpr hx12
  have e13 : eqX m1 m3 = true := eqX_true_iff.mpr hx13
  have e14 : eqX m1 m4 = false := by
    rw [Bool.eq_false_iff]
    intro hc
    exact absurd (eqX_true_iff.mp hc) (ne_of_lt hx14)
  have hsame : same [m1, m2, m3, m4] 0 eqX = 2 := by
    show sameAux [m1, m2, m3, m4] 0 eqX 4 0 = 2
    simp [sameAux, nget, e12, e13, e14]
  have hpush : pushFromX [m1, m2, m3, m4] 3
      (groupMaxX [m1, m2, m3, m4] padding 0 2) =
      .ok [m1, m2, m3,
        { m4 with
          up := some ⟨u4.x + groupMaxX [m1, m2, m3, m4] padding 0 2, u4.y⟩ }] := by
    simp [pushFromX, pushUpX, hu4]
  show scanXAux padding 4 [m1, m2, m3, m4] 0 = _
  conv_lhs => unfold scanXAux
  rw [if_pos (show (0:Nat) < [m1, m2, m3, m4].length - 1 by simp), hsame, hpush]
  conv_lhs => unfold scanXAux
  rw [if_neg (by simp)]

/-! Concrete evaluation: counterexamples to the claims the code refutes, and
instantiations of each general theorem above on explicit node lists.  The
rational arithmetic of `decide` needs the `Rat` operations reducible. -/

section

attribute [local semireducible] Rat.add Rat.sub Rat.mul Rat.inv

set_option maxRecDepth 8000

/-- C1 counterexample: two coincident 2×2 squares overlap, yet `pfs` returns
successfully with both exactly in place, so the output still contains an
overlapping pair of distinct nodes — the unqualified claim is false. -/
theorem claim_C1_counterexample :
    pfs [wa, wb0] 0 = .ok [wa, wb0] ∧ overlap wa wb0 0 = true ∧ wa.id ≠ wb0.id :=
  ⟨by decide, by decide, by decide⟩

/-- C4 counterexample: three staged nodes tied at x = 0 and a fourth at
x = 1 overlapping them: the x pass leaves the three group nodes untouched
and moves the fourth (staged x from 1 to 2), with a nonzero `maxDelta` of 1
— the reverse of the claimed behaviour. -/
theorem claim_C4_counterexample :
    scanX [wg1, wg2, wg3, wg4] 0 =
      .ok [wg1, wg2, wg3, ⟨3, 1, 1, 2, 2, some ⟨2, 1⟩⟩] ∧
    groupMaxX [wg1, wg2, wg3, wg4] 0 0 2 = 1 :=
  ⟨by decide, by decide⟩

/-- C7 counterexample: on three overlapping boxes the first `pfs` run leaves
a residual overlap, and a second run with the same padding moves the node
with id 1 from y = 91 to y = 100 (and the node with id 2 from y = 1 to
y = 10) — running `pfs` twice is not the same as running it once. -/
theorem claim_C7_counterexample :
    pfs [wca, wcb, wcc] 0 = .ok [wca, wcc1, wcb1] ∧
    pfs [wca, wcc1, wcb1] 0 = .ok [wca, wcc2, wcb2] ∧
    wcb1.id = wcb2.id ∧ wcb1.y ≠ wcb2.y :=
  ⟨by decide, by decide, by decide, by decide⟩

/-- C1 witness: the amended no-residual-overlap theorem applied to the
overlapping, x-separable pair `[wa, wb]` with padding 0. -/
theorem claim_C1_witness :
    0 ≤ (0 : ℚ) ∧ ([wa, wb].map Node.id).Nodup ∧
    wa ∈ [wa, wb] ∧ wb ∈ [wa, wb] ∧ wa.id ≠ wb.id ∧ sepAxisOK wa wb 0 ∧
    pfs [wa, wb] 0 = .ok [wa, wb2] ∧
    wa ∈ [wa, wb2] ∧ wb2 ∈ [wa, wb2] ∧ wb2.id = wb.id ∧
    overlap wa wb2 0 = false := by
  refine ⟨by decide, by decide, by decide, by decide, by decide,
    Or.inr (Or.inl ⟨by decide, by decide⟩), by decide, by decide, by decide,
    by decide, ?_⟩
  exact claim_C1_no_residual_overlap_amended [wa, wb] 0 (by decide) (by decide)
    wa wb (by decide) (by decide) (by decide)
    (Or.inr (Or.inl ⟨by decide, by decide⟩))
    [wa, wb2] wa wb2 (by decide) (by decide) (by decide) rfl (by decide)

/-- C2 witness: order preservation applied to the pair `[wa, wb]` with
padding 0, whose run pushes `wb` from x = 1 to x = 2. -/
theorem claim_C2_witness :
    0 ≤ (0 : ℚ) ∧ ([wa, wb].map Node.id).Nodup ∧
    pfs [wa, wb] 0 = .ok [wa, wb2] ∧
    wa ∈ [wa, wb] ∧ wb ∈ [wa, wb] ∧ wa ∈ [wa, wb2] ∧ wb2 ∈ [wa, wb2] ∧
    ((wa.x < wb.x → wa.x ≤ wb2.x) ∧ (wa.y < wb.y → wa.y ≤ wb2.y)) := by
  refine ⟨by decide, by decide, by decide, by decide, by decide, by decide,
    by decide, ?_⟩
  exact claim_C2_order_preservation [wa, wb] 0 (by decide) (by decide)
    [wa, wb2] (by decide) wa wb wa wb2 (by decide) (by decide) (by decide)
    (by decide) rfl (by decide)

/-- C3 witness: the tie-group push theorem applied to the staged pair
`[wsa, wsb]` at cursor 0 with fuel 5. -/
theorem claim_C3_witness :
    AllUp [wsa, wsb] ∧ 0 < [wsa, wsb].length - 1 ∧
    ((∃ nodes2,
        pushFromX [wsa, wsb] (same [wsa, wsb] 0 eqX + 1)
          (groupMaxX [wsa, wsb] 0 0 (same [wsa, wsb] 0 eqX)) = .ok nodes2 ∧
        scanXAux 0 (5 + 1) [wsa, wsb] 0 =
          scanXAux 0 5 nodes2 (same [wsa, wsb] 0 eqX + 1) ∧
        (∀ j, j ≤ same [wsa, wsb] 0 eqX → nget nodes2 j = nget [wsa, wsb] j) ∧
        (∀ j, same [wsa, wsb] 0 eqX < j → j < [wsa, wsb].length →
          nget nodes2 j =
            pushNodeX (groupMaxX [wsa, wsb] 0 0 (same [wsa, wsb] 0 eqX))
              (nget [wsa, wsb] j))) ∧
      (∃ nodes2,
        pushFromY [wsa, wsb] (same [wsa, wsb] 0 eqY + 1)
          (groupMaxY [wsa, wsb] 0 0 (same [wsa, wsb] 0 eqY)) = .ok nodes2 ∧
        scanYAux 0 (5 + 1) [wsa, wsb] 0 =
          scanYAux 0 5 nodes2 (same [wsa, wsb] 0 eqY + 1) ∧
        (∀ j, j ≤ same [wsa, wsb] 0 eqY → nget nodes2 j = nget [wsa, wsb] j) ∧
        (∀ j, same [wsa, wsb] 0 eqY < j → j < [wsa, wsb].length →
          nget nodes2 j =
            pushNodeY (groupMaxY [wsa, wsb] 0 0 (same [wsa, wsb] 0 eqY))
              (nget [wsa, wsb] j)))) := by
  have hall : AllUp [wsa, wsb] := by
    intro n hn
    rcases List.mem_pair.mp hn with rfl | rfl <;> rfl
  exact ⟨hall, by decide,
    claim_C3_push_exactly_beyond_group [wsa, wsb] 0 0 5 hall (by decide)⟩

/-- C4 witness: the amended tie-group theorem applied to the three staged
nodes at x = 0 and the staged fourth node at x = 1 with padding 0. -/
theorem claim_C4_witness :
    wg1.up.isSome = true ∧ wg2.up.isSome = true ∧ wg3.up.isSome = true ∧
    wg4.up = some ⟨1, 1⟩ ∧
    wg1.x = wg2.x ∧ wg1.x = wg3.x ∧ wg1.x < wg4.x ∧
    overlap wg1 wg4 0 = true ∧
    scanX [wg1, wg2, wg3, wg4] 0 =
      .ok [wg1, wg2, wg3,
        { wg4 with up := some ⟨(⟨1, 1⟩ : Pt).x + groupMaxX [wg1, wg2, wg3, wg4] 0 0 2, (⟨1, 1⟩ : Pt).y⟩ }] := by
  exact ⟨rfl, rfl, rfl, rfl, rfl, rfl, by decide, by decide,
    claim_C4_tie_group_amended wg1 wg2 wg3 wg4 0 ⟨1, 1⟩ rfl rfl rfl rfl rfl rfl
      (by decide) (by decide)⟩

/-- C5 witness: the first-seen-maximum theorem applied to the staged pair
`[wsa, wsb]` with group `[0, 0]`, whose x delta list is `[1]` and y delta
list is `[0]`. -/
theorem claim_C5_witness :
    pairsX [wsa, wsb] 0 0 0 ≠ [] ∧
    (∃ n, n < (pairsX [wsa, wsb] 0 0 0).length ∧
      groupMaxX [wsa, wsb] 0 0 0 = (pairsX [wsa, wsb] 0 0 0).getD n 0 ∧
      (∀ d ∈ pairsX [wsa, wsb] 0 0 0,
        |d| ≤ |(pairsX [wsa, wsb] 0 0 0).getD n 0|) ∧
      (∀ m, m < n →
        |(pairsX [wsa, wsb] 0 0 0).getD m 0| <
          |(pairsX [wsa, wsb] 0 0 0).getD n 0|)) ∧
    pairsY [wsa, wsb] 0 0 0 ≠ [] ∧
    (∃ n, n < (pairsY [wsa, wsb] 0 0 0).length ∧
      groupMaxY [wsa, wsb] 0 0 0 = (pairsY [wsa, wsb] 0 0 0).getD n 0 ∧
      (∀ d ∈ pairsY [wsa, wsb] 0 0 0,
        |d| ≤ |(pairsY [wsa, wsb] 0 0 0).getD n 0|) ∧
      (∀ m, m < n →
        |(pairsY [wsa, wsb] 0 0 0).getD m 0| <
          |(pairsY [wsa, wsb] 0 0 0).getD n 0|)) := by
  exact ⟨by decide,
    (claim_C5_max_magnitude_first_seen [wsa, wsb] 0 0 0).1 (by decide),
    by decide,
    (claim_C5_max_magnitude_first_seen [wsa, wsb] 0 0 0).2 (by decide)⟩

/-- C6 witness: the identity theorem applied to the overlap-free pair
`[wa, wfb]`, to the empty list, and to the single node `wSingle`. -/
theorem claim_C6_witness :
    ([wa, wfb].map Node.id).Nodup ∧
    (∀ a b, a ∈ [wa, wfb] → b ∈ [wa, wfb] → a.id ≠ b.id →
      overlap a b 0 = false) ∧
    (∃ res, pfs [wa, wfb] 0 = .ok res ∧
      (∀ n ∈ [wa, wfb], { n with up := none } ∈ res) ∧
      (∀ n' ∈ res, ∃ n, n ∈ [wa, wfb] ∧ n' = { n with up := none })) ∧
    pfs ([] : List Node) 0 = .ok [] ∧
    wSingle.up = none ∧ pfs [wSingle] 0 = .ok [wSingle] := by
  have hno : ∀ a b, a ∈ [wa, wfb] → b ∈ [wa, wfb] → a.id ≠ b.id →
      overlap a b 0 = false := by
    intro a b ha hb hne
    rcases List.mem_pair.mp ha with rfl | rfl <;>
      rcases List.mem_pair.mp hb with rfl | rfl
    · exact absurd rfl hne
    · decide
    · decide
    · exact absurd rfl hne
  exact ⟨by decide, hno,
    claim_C6_identity_on_no_overlap.1 [wa, wfb] 0 (by decide) hno,
    claim_C6_identity_on_no_overlap.2.1 0,
    rfl,
    claim_C6_identity_on_no_overlap.2.2 wSingle 0 rfl⟩

/-- C7 witness: the amended idempotence theorem applied to the overlap-free
pair `[wa, wfb]`, whose first run is already the identity. -/
theorem claim_C7_witness :
    ([wa, wfb].map Node.id).Nodup ∧
    pfs [wa, wfb] 0 = .ok [wa, wfb] ∧
    (∀ a b, a ∈ [wa, wfb] → b ∈ [wa, wfb] → a.id ≠ b.id →
      overlap a b 0 = false) ∧
    (∃ res2, pfs [wa, wfb] 0 = .ok res2 ∧ List.Perm res2 [wa, wfb]) := by
  have hno : ∀ a b, a ∈ [wa, wfb] → b ∈ [wa, wfb] → a.id ≠ b.id →
      overlap a b 0 = false := by
    intro a b ha hb hne
    rcases List.mem_pair.mp ha with rfl | rfl <;>
      rcases List.mem_pair.mp hb with rfl | rfl
    · exact absurd rfl hne
    · decide
    · decide
    · exact absurd rfl hne
  exact ⟨by decide, by decide, hno,
    claim_C7_idempotence_amended [wa, wfb] 0 [wa, wfb] (by decide) (by decide) hno⟩

/-- C8 witness: the missing-staged-position theorem applied to the one-node
list `wSolo` (push and commit conjuncts) and to the pair `[wsa, wmb]` whose
second node lacks its staged position (scan conjuncts). -/
theorem claim_C8_witness :
    (∃ n, n ∈ wSolo.drop 0 ∧ n.up = none) ∧
    (∃ n, n ∈ wSolo ∧ n.up = none) ∧
    (∃ e, pushFromX wSolo 0 1 = .error e) ∧
    (∃ e, pushFromY wSolo 0 1 = .error e) ∧
    (∃ e, commit wSolo = .error e) ∧
    0 < [wsa, wmb].length - 1 ∧
    (∃ n, n ∈ [wsa, wmb].drop (same [wsa, wmb] 0 eqX + 1) ∧ n.up = none) ∧
    (∃ e, scanXAux 0 (1 + 1) [wsa, wmb] 0 = .error e) ∧
    (∃ n, n ∈ [wsa, wmb].drop (same [wsa, wmb] 0 eqY + 1) ∧ n.up = none) ∧
    (∃ e, scanYAux 0 (1 + 1) [wsa, wmb] 0 = .error e) := by
  have h1 : ∃ n, n ∈ wSolo.drop 0 ∧ n.up = none :=
    ⟨⟨0, 0, 0, 1, 1, none⟩, by decide, rfl⟩
  have h2 : ∃ n, n ∈ wSolo ∧ n.up = none :=
    ⟨⟨0, 0, 0, 1, 1, none⟩, by decide, rfl⟩
  have h3 : ∃ n, n ∈ [wsa, wmb].drop (same [wsa, wmb] 0 eqX + 1) ∧ n.up = none :=
    ⟨wmb, by decide, rfl⟩
  have h4 : ∃ n, n ∈ [wsa, wmb].drop (same [wsa, wmb] 0 eqY + 1) ∧ n.up = none :=
    ⟨wmb, by decide, rfl⟩
  exact ⟨h1, h2,
    claim_C8_missing_staged_error.1 1 wSolo 0 h1,
    claim_C8_missing_staged_error.2.1 1 wSolo 0 h1,
    claim_C8_missing_staged_error.2.2.1 wSolo h2,
    by decide, h3,
    claim_C8_missing_staged_error.2.2.2.1 [wsa, wmb] 0 0 1 (by decide) h3,
    h4,
    claim_C8_missing_staged_error.2.2.2.2 [wsa, wmb] 0 0 1 (by decide) h4⟩

/-- C9 witness: the frame theorem applied to the staged pair `[wsa, wsb]`:
the x scan pushes only the staged x of `wsb`, the y scan moves nothing. -/
theorem claim_C9_witness :
    scanX [wsa, wsb] 0 = .ok [wsa, wsb2] ∧
    ([wsa, wsb2].length = [wsa, wsb].length ∧
      ∀ j, ∃ d, nget [wsa, wsb2] j = pushNodeX d (nget [wsa, wsb] j)) ∧
    scanY [wsa, wsb] 0 = .ok [wsa, wsb] ∧
    ([wsa, wsb].length = [wsa, wsb].length ∧
      ∀ j, ∃ d, nget [wsa, wsb] j = pushNodeY d (nget [wsa, wsb] j)) := by
  exact ⟨by decide, (claim_C9_scan_frame [wsa, wsb] 0 [wsa, wsb2]).1 (by decide),
    by decide, (claim_C9_scan_frame [wsa, wsb] 0 [wsa, wsb]).2 (by decide)⟩

/-- C10 witness: the termination theorem applied to the staged pair
`[wsa, wsb]` with fuel 7 on both scans. -/
theorem claim_C10_witness :
    0 ≤ same [wsa, wsb] 0 eqX ∧
    (0 < [wsa, wsb].length ∧ same [wsa, wsb] 0 eqX ≤ [wsa, wsb].length - 1) ∧
    ([wsa, wsb].length ≤ 7 ∧ scanXAux 0 7 [wsa, wsb] 0 = scanX [wsa, wsb] 0) ∧
    ([wsa, wsb].length ≤ 7 ∧ scanYAux 0 7 [wsa, wsb] 0 = scanY [wsa, wsb] 0) := by
  exact ⟨claim_C10_termination.1 [wsa, wsb] 0 eqX,
    ⟨by decide, claim_C10_termination.2.1 [wsa, wsb] 0 eqX (by decide)⟩,
    ⟨by decide, claim_C10_termination.2.2.1 [wsa, wsb] 0 7 (by decide)⟩,
    ⟨by decide, claim_C10_termination.2.2.2 [wsa, wsb] 0 7 (by decide)⟩⟩

end
